import Mathlib

/-!
Verification of the `asciimaze` core (maze generation, BFS pathfinding,
DDA raycasting, projection, movement and collision, braille packing).

Embedding conventions:
* Python floats are modelled as exact rationals (`ℚ`); `math.cos`/`math.sin`
  values are passed in as explicit direction components at the call boundary.
* Python `int(x)` truncates toward zero; this is `pyInt`.
* A grid (`List[str]` in the source) is a list of rows of characters.
* Mutation is modelled by explicit state passing; `while` loops by fuel
  recursion, with the fuel chosen so that the loop provably finishes.
  Sequences of statements are decomposed into named per-statement helper
  functions.
* `random.Random` is modelled as a stream of naturals `ℕ → ℕ`; the k-th
  call of `rng.choice(l)` returns `l[rng k % len l]`.
-/

namespace Maze3d

/-- `WALL = "#"` from constants.py. -/
def WALL : Char := '#'

/-- `OPEN = " "` from constants.py. -/
def OPEN : Char := ' '

/-- `WALL_HEIGHT = 1.0` from constants.py. -/
def WALL_HEIGHT : ℚ := 1

/-- `FREE_MAX_Z = 6.0` from constants.py. -/
def FREE_MAX_Z : ℚ := 6

/-- `MAX_RAY_DIST = 40.0` from constants.py. -/
def MAX_RAY_DIST : ℚ := 40

/-- `MOVE_SPEED = 3.2` from constants.py. -/
def MOVE_SPEED : ℚ := 16/5

/-- Python `int()` applied to a float: truncation toward zero. -/
def pyInt (q : ℚ) : ℤ := if q < 0 then ⌈q⌉ else ⌊q⌋

/-- A maze grid: list of rows, each row a list of characters. -/
abbrev Grid := List (List Char)

/-- Character of `grid` at column `x`, row `y` (callers establish bounds;
out-of-range reads default to `WALL`, which Python would never perform). -/
def gridChar (grid : Grid) (x y : ℤ) : Char :=
  (grid.getD y.toNat []).getD x.toNat WALL

/-- `is_wall` from maze.py: out-of-bounds counts as wall, otherwise test
the cell against `WALL`.  Bounds use `len(grid)` and `len(grid[0])`. -/
def is_wall (grid : Grid) (x y : ℤ) : Bool :=
  if y < 0 ∨ (grid.length : ℤ) ≤ y ∨ x < 0 ∨ ((grid.headD []).length : ℤ) ≤ x then
    true
  else
    gridChar grid x y = WALL

/-- `cell_floor_height` from maze.py: `WALL_HEIGHT` out of bounds or on a
wall cell, `0.0` on an open cell. -/
def cell_floor_height (grid : Grid) (x y : ℤ) : ℚ :=
  if y < 0 ∨ (grid.length : ℤ) ≤ y ∨ x < 0 ∨ ((grid.headD []).length : ℤ) ≤ x then
    WALL_HEIGHT
  else if gridChar grid x y = WALL then WALL_HEIGHT else 0

/-- `Player` from models.py (continuous fields as rationals). -/
structure Player where
  x : ℚ
  y : ℚ
  z : ℚ
  ang : ℚ
  pitch : ℚ
  vz : ℚ
deriving DecidableEq

/-- First statement block of `resolve_floor_collision`: if `z` is below
the floor height of the occupied cell, raise `z` to the floor and zero a
negative `vz`. -/
def floorClamp (grid : Grid) (p : Player) : Player :=
  if p.z < cell_floor_height grid (pyInt p.x) (pyInt p.y) then
    { p with z := cell_floor_height grid (pyInt p.x) (pyInt p.y),
             vz := if p.vz < 0 then 0 else p.vz }
  else p

/-- Second statement block of `resolve_floor_collision`: if `z` is above
`FREE_MAX_Z`, lower `z` to it and zero a positive `vz`. -/
def ceilClamp (p : Player) : Player :=
  if FREE_MAX_Z < p.z then
    { p with z := FREE_MAX_Z, vz := if 0 < p.vz then 0 else p.vz }
  else p

/-- `resolve_floor_collision` from maze.py, as a state transformer: the
floor clamp followed by the `FREE_MAX_Z` clamp. -/
def resolve_floor_collision (grid : Grid) (p : Player) : Player :=
  ceilClamp (floorClamp grid p)

/-- The X-axis block of `move_horizontal_default`: accept the candidate
`nx` only if the destination column at the current row is not a wall. -/
def moveAxisX (grid : Grid) (p : Player) (nx : ℚ) : Player :=
  if is_wall grid (pyInt nx) (pyInt p.y) = false then { p with x := nx } else p

/-- The Y-axis block of `move_horizontal_default`: accept the candidate
`ny` only if the destination row at the current (possibly already moved)
column is not a wall. -/
def moveAxisY (grid : Grid) (p : Player) (ny : ℚ) : Player :=
  if is_wall grid (pyInt p.x) (pyInt ny) = false then { p with y := ny } else p

/-- `move_horizontal_default` from movement.py.  `c` and `s` stand for
`math.cos(player.ang)` and `math.sin(player.ang)`, evaluated at the call
boundary.  The source mutates `player.x` first and then tests the Y move
against the already-updated `player.x`. -/
def move_horizontal_default (grid : Grid) (p : Player) (c s forward dt : ℚ) :
    Player :=
  moveAxisY grid (moveAxisX grid p (p.x + c * (forward * MOVE_SPEED * dt)))
    (p.y + s * (forward * MOVE_SPEED * dt))

/-- The final swap of `compute_wall_span`: order the two projected rows. -/
def wallSpanSwap (top bot : ℤ) : ℤ × ℤ :=
  if bot < top then (bot, top) else (top, bot)

/-- `compute_wall_span` from raycast.py: project the wall segment
`[0, WALL_HEIGHT]` through a pinhole with plane constant `height * 1.25`
and scale `proj = plane / max(0.0001, dist)`, swapping the two resulting
rows if inverted. -/
def compute_wall_span (height : ℤ) (dist cam_z mid : ℚ) : ℤ × ℤ :=
  wallSpanSwap
    (pyInt (mid - (WALL_HEIGHT - cam_z) * ((height : ℚ) * (5/4) / max (1/10000) dist)))
    (pyInt (mid - (0 - cam_z) * ((height : ℚ) * (5/4) / max (1/10000) dist)))

/-! ## Raycasting (`cast_ray`) -/

/-- Exit status of the DDA marching loop in `cast_ray`: the march either
leaves the grid bounds or strikes a wall cell at some raw distance. -/
inductive RayExit where
  | bounds (side : ℕ)
  | wall (dist : ℚ) (side : ℕ)
deriving DecidableEq

/-- The per-axis delta computation of `cast_ray`: a direction component of
exactly zero is replaced by the very large delta `1e30`, so no division by
zero is ever performed. -/
def deltaDist (d : ℚ) : ℚ := if d = 0 then 10^30 else |1/d|

/-- The per-axis step direction of `cast_ray`: `-1` for a negative
direction component, else `+1`. -/
def rayStep (d : ℚ) : ℤ := if d < 0 then -1 else 1

/-- The initial per-axis side distance of `cast_ray` (distance to the
first gridline along this axis, in delta units). -/
def raySideDist (pos d : ℚ) : ℚ :=
  if d < 0 then (pos - (pyInt pos : ℚ)) * deltaDist d
  else ((pyInt pos : ℚ) + 1 - pos) * deltaDist d

/-- The `while True` DDA march of `cast_ray`: advance along whichever axis
has the nearer next gridline (recording the crossed axis as `side`), then
test bounds and the wall cell.  Fuel recursion; `none` means the fuel ran
out (impossible for the fuel used by `cast_ray`, see the termination
theorem). -/
def castLoop (grid : Grid) (max_x max_y : ℤ) (ddx ddy : ℚ) (stx sty : ℤ) :
    ℕ → ℚ → ℚ → ℤ → ℤ → Option RayExit
  | 0, _, _, _, _ => none
  | fuel + 1, sdx, sdy, mx, my =>
    if sdx < sdy then
      if mx + stx < 0 ∨ max_x ≤ mx + stx ∨ my < 0 ∨ max_y ≤ my then
        some (RayExit.bounds 0)
      else if gridChar grid (mx + stx) my = WALL then
        some (RayExit.wall ((sdx + ddx) - ddx) 0)
      else
        castLoop grid max_x max_y ddx ddy stx sty fuel (sdx + ddx) sdy (mx + stx) my
    else
      if mx < 0 ∨ max_x ≤ mx ∨ my + sty < 0 ∨ max_y ≤ my + sty then
        some (RayExit.bounds 1)
      else if gridChar grid mx (my + sty) = WALL then
        some (RayExit.wall ((sdy + ddy) - ddy) 1)
      else
        castLoop grid max_x max_y ddx ddy stx sty fuel sdx (sdy + ddy) mx (my + sty)

/-- Fuel that provably outlasts the DDA march from origin `(px, py)`:
the march moves one integer coordinate monotonically per iteration, so it
exits within this many steps. -/
def castFuel (grid : Grid) (px py : ℚ) : ℕ :=
  (((grid.headD []).length : ℤ) - pyInt px).toNat + (pyInt px + 1).toNat +
    ((grid.length : ℤ) - pyInt py).toNat + (pyInt py + 1).toNat + 1

/-- The marching phase of `cast_ray` (everything before the two `return`
statements): deltas, step directions and initial side distances as in the
source, then the DDA loop with `max_x = len(grid[0])`, `max_y = len(grid)`. -/
def castRayLoopCall (grid : Grid) (px py dir_x dir_y : ℚ) : Option RayExit :=
  castLoop grid ((grid.headD []).length : ℤ) (grid.length : ℤ)
    (deltaDist dir_x) (deltaDist dir_y) (rayStep dir_x) (rayStep dir_y)
    (castFuel grid px py) (raySideDist px dir_x) (raySideDist py dir_y)
    (pyInt px) (pyInt py)

/-- `cast_ray` from raycast.py.  `dir_x`/`dir_y` stand for
`math.cos(ang)`/`math.sin(ang)`, evaluated at the call boundary.  A
bounds exit returns the sentinel `MAX_RAY_DIST`; a wall hit returns the
raw side distance clamped to `[0, MAX_RAY_DIST]`. -/
def cast_ray (grid : Grid) (px py dir_x dir_y : ℚ) : ℚ × ℕ :=
  match castRayLoopCall grid px py dir_x dir_y with
  | some (RayExit.bounds side) => (MAX_RAY_DIST, side)
  | some (RayExit.wall dist side) => (min (max dist 0) MAX_RAY_DIST, side)
  | none => (MAX_RAY_DIST, 0)

/-! ## Braille packing -/

/-- `_BRAILLE_BITS` from render_braille.py: the bit for each
(sub-column, sub-row) pair of the 2×4 braille dot layout. -/
def brailleBits (sub_col sub_row : ℕ) : ℕ :=
  match sub_col, sub_row with
  | 0, 0 => 0x01
  | 0, 1 => 0x02
  | 0, 2 => 0x04
  | 0, 3 => 0x40
  | 1, 0 => 0x08
  | 1, 1 => 0x10
  | 1, 2 => 0x20
  | 1, 3 => 0x80
  | _, _ => 0

/-- The bit accumulation of `render_braille.cell`: OR together the bits of
every sub-pixel `(sub_col, sub_row)` of terminal cell `(xi, y)` whose
pixel row `4*y + sub_row` lies in the wall span `[top_p[sx], bot_p[sx])`
of sub-column `sx = 2*xi + sub_col`. -/
def brailleCellBits (top_p bot_p : List ℤ) (xi y : ℕ) : ℕ :=
  [0, 1].foldl (fun bits sub_col =>
    ([0, 1, 2, 3] : List ℕ).foldl (fun bits sub_row =>
      if top_p.getD (2 * xi + sub_col) 0 ≤ Int.ofNat (4 * y + sub_row) ∧
         Int.ofNat (4 * y + sub_row) < bot_p.getD (2 * xi + sub_col) 0 then
        bits ||| brailleBits sub_col sub_row
      else bits)
      bits) 0

/-- The glyph built by `render_braille.cell` when wall bits are present:
`chr(0x2800 + bits)`. -/
def brailleCellGlyph (top_p bot_p : List ℤ) (xi y : ℕ) : Char :=
  Char.ofNat (0x2800 + brailleCellBits top_p bot_p xi y)

/-! ## Breadth-first pathfinding (`find_path_cells`) -/

/-- A map coordinate `(x, y)`. -/
abbrev Pos := ℤ × ℤ

/-- Number of rows of a grid (`H = len(grid)`). -/
def gridH (grid : Grid) : ℤ := grid.length

/-- Number of columns of a grid (`W = len(grid[0]) if H else 0`). -/
def gridW (grid : Grid) : ℤ :=
  if grid.length = 0 then 0 else (grid.headD []).length

/-- Lookup in the `prev` mapping, modelled as an association list in
insertion order (first match wins; keys are never inserted twice). -/
def lookupPrev : List (Pos × Option Pos) → Pos → Option (Option Pos)
  | [], _ => none
  | e :: rest, p => if e.1 = p then some e.2 else lookupPrev rest p

/-- The neighbour test of the BFS loop: in bounds and an `OPEN` cell. -/
def isOpenCell (grid : Grid) (W H : ℤ) (p : Pos) : Bool :=
  decide ((0 ≤ p.1 ∧ p.1 < W ∧ 0 ≤ p.2 ∧ p.2 < H) ∧ gridChar grid p.1 p.2 = OPEN)

/-- Neighbour offsets of the BFS loop, in source order. -/
def bfsDirs : List Pos := [(1, 0), (-1, 0), (0, 1), (0, -1)]

/-- Processing of one neighbour offset inside the BFS loop: enqueue the
neighbour and record its parent when it is open, in bounds and not yet in
`prev`. -/
def bfsScan (grid : Grid) (W H : ℤ) (p : Pos)
    (acc : List Pos × List (Pos × Option Pos)) (d : Pos) :
    List Pos × List (Pos × Option Pos) :=
  if isOpenCell grid W H (p.1 + d.1, p.2 + d.2) = true ∧
     lookupPrev acc.2 (p.1 + d.1, p.2 + d.2) = none then
    (acc.1 ++ [(p.1 + d.1, p.2 + d.2)], acc.2 ++ [((p.1 + d.1, p.2 + d.2), some p)])
  else acc

/-- The BFS `while q` loop of `find_path_cells`: pop the queue head, stop
at the goal, otherwise scan the four neighbour offsets.  Returns the final
`prev` mapping.  Fuel recursion; the fuel used by `find_path_cells`
provably outlasts the loop. -/
def bfsLoop (grid : Grid) (W H : ℤ) (goal : Pos) :
    ℕ → List Pos → List (Pos × Option Pos) → List (Pos × Option Pos)
  | 0, _, prev => prev
  | fuel + 1, q, prev =>
    match q with
    | [] => prev
    | p :: qrest =>
      if p = goal then prev
      else
        bfsLoop grid W H goal fuel
          (bfsDirs.foldl (bfsScan grid W H p) (qrest, prev)).1
          (bfsDirs.foldl (bfsScan grid W H p) (qrest, prev)).2

/-- The BFS phase of `find_path_cells`: queue and `prev` both start from
`start`, and the fuel provably outlasts the loop. -/
def bfsRun (grid : Grid) (start goal : Pos) : List (Pos × Option Pos) :=
  bfsLoop grid (gridW grid) (gridH grid) goal
    (2 * (gridW grid).toNat * (gridH grid).toNat) [start] [(start, none)]

/-- The reconstruction loop of `find_path_cells`: follow parent pointers
from `goal` back to the root.  The source appends and then reverses; this
recursion builds the reversed list directly. -/
def reconstruct (prev : List (Pos × Option Pos)) : ℕ → Pos → List Pos
  | 0, cur => [cur]
  | fuel + 1, cur =>
    match lookupPrev prev cur with
    | some (some par) => reconstruct prev fuel par ++ [cur]
    | _ => [cur]

/-- The tail of `find_path_cells` after the BFS: return `[start]` when the
goal was never recorded, otherwise walk the parent chain back from the
goal. -/
def pathFromPrev (prev : List (Pos × Option Pos)) (start goal : Pos) : List Pos :=
  match lookupPrev prev goal with
  | none => [start]
  | some _ => reconstruct prev prev.length goal

/-- `find_path_cells` from maze.py: bounds-check both endpoints, run the
BFS, and reconstruct. -/
def find_path_cells (grid : Grid) (start goal : Pos) : List Pos :=
  if 0 ≤ start.1 ∧ start.1 < gridW grid ∧ 0 ≤ start.2 ∧ start.2 < gridH grid ∧
     0 ≤ goal.1 ∧ goal.1 < gridW grid ∧ 0 ≤ goal.2 ∧ goal.2 < gridH grid then
    pathFromPrev (bfsRun grid start goal) start goal
  else [start]

/-! ## Maze generation (`generate_maze`) -/

/-- State of the carving loop of `generate_maze`: the visited lattice
cells, the set of map coordinates carved `OPEN` so far, the DFS stack
(head = top), and the number of random choices made. -/
structure MazeState where
  visited : Finset (ℤ × ℤ)
  openS : Finset (ℤ × ℤ)
  stack : List (ℤ × ℤ)
  k : ℕ

/-- `cell_to_map` from `generate_maze`: lattice cell `(cx, cy)` sits at
map coordinates `(2*cx + 1, 2*cy + 1)`. -/
def nodeOf (c : ℤ × ℤ) : ℤ × ℤ := (2 * c.1 + 1, 2 * c.2 + 1)

/-- Neighbour offsets used by `generate_maze`, in source order. -/
def mazeDirs : List (ℤ × ℤ) := [(-1, 0), (1, 0), (0, -1), (0, 1)]

/-- The neighbour admission test of `generate_maze`: in lattice bounds
and not yet visited. -/
def neighCheck (cw ch : ℤ) (visited : Finset (ℤ × ℤ)) (n : ℤ × ℤ) : Bool :=
  decide (0 ≤ n.1 ∧ n.1 < cw ∧ 0 ≤ n.2 ∧ n.2 < ch ∧ n ∉ visited)

/-- The unvisited in-lattice neighbours of `c`, appended in the source's
direction order `(-1,0), (1,0), (0,-1), (0,1)`. -/
def cellNeighbors (cw ch : ℤ) (visited : Finset (ℤ × ℤ)) (c : ℤ × ℤ) :
    List (ℤ × ℤ) :=
  (if neighCheck cw ch visited (c.1 - 1, c.2) then [(c.1 - 1, c.2)] else []) ++
  (if neighCheck cw ch visited (c.1 + 1, c.2) then [(c.1 + 1, c.2)] else []) ++
  (if neighCheck cw ch visited (c.1, c.2 - 1) then [(c.1, c.2 - 1)] else []) ++
  (if neighCheck cw ch visited (c.1, c.2 + 1) then [(c.1, c.2 + 1)] else [])

/-- The carving block of the loop body of `generate_maze`: mark `n`
visited, open its node and the map cell between `c` and `n` (integer
midpoint of the two nodes; the source's floor division of nonnegative
coordinates), and push `n`. -/
def carveStep (s : MazeState) (c n : ℤ × ℤ) : MazeState :=
  { visited := insert n s.visited,
    openS := insert (((nodeOf c).1 + (nodeOf n).1) / 2, ((nodeOf c).2 + (nodeOf n).2) / 2)
      (insert (nodeOf n) s.openS),
    stack := n :: s.stack,
    k := s.k + 1 }

/-- The `while stack` loop of `generate_maze`: carve toward a randomly
chosen unvisited neighbour of the stack top, or pop. -/
def mazeLoop (cw ch : ℤ) (rng : ℕ → ℕ) : ℕ → MazeState → MazeState
  | 0, s => s
  | fuel + 1, s =>
    match s.stack with
    | [] => s
    | c :: rest =>
      match cellNeighbors cw ch s.visited c with
      | [] => mazeLoop cw ch rng fuel { s with stack := rest }
      | m :: ms =>
        mazeLoop cw ch rng fuel
          (carveStep s c ((m :: ms).getD (rng s.k % (m :: ms).length) (0, 0)))

/-- The setup of `generate_maze`: cell `(0,0)` visited, its node open,
the stack holding `(0,0)`. -/
def mazeInit : MazeState :=
  { visited := {(0, 0)}, openS := {nodeOf (0, 0)}, stack := [(0, 0)], k := 0 }

/-- The final carving state of `generate_maze` (sizes clamped up to 2 as
in the source; the fuel provably outlasts the loop). -/
def mazeFinal (cell_w cell_h : ℤ) (rng : ℕ → ℕ) : MazeState :=
  mazeLoop (max 2 cell_w) (max 2 cell_h) rng
    (2 * ((max 2 cell_w) * (max 2 cell_h)).toNat) mazeInit

/-- Materialise an open set as a `W × H` character grid (the source's
row-join of the mutated grid). -/
def gridOfOpen (W H : ℤ) (S : Finset (ℤ × ℤ)) : Grid :=
  (List.range H.toNat).map fun y =>
    (List.range W.toNat).map fun x =>
      if (Int.ofNat x, Int.ofNat y) ∈ S then OPEN else WALL

/-- `generate_maze` from maze.py. -/
def generate_maze (cell_w cell_h : ℤ) (rng : ℕ → ℕ) : Grid :=
  gridOfOpen ((max 2 cell_w) * 2 + 1) ((max 2 cell_h) * 2 + 1)
    (mazeFinal cell_w cell_h rng).openS

/-! ## Spec-side graph notions (4-adjacency, induced open subgraph) -/

/-- 4-adjacency of map cells: Manhattan distance exactly 1. -/
def mapAdj (p q : ℤ × ℤ) : Prop := (p.1 - q.1).natAbs + (p.2 - q.2).natAbs = 1

/-- Connectivity inside a set of map cells: reflexive-transitive closure
of 4-adjacency with both endpoints in the set. -/
def ReachIn (S : Finset (ℤ × ℤ)) (p q : ℤ × ℤ) : Prop :=
  Relation.ReflTransGen (fun u v => u ∈ S ∧ v ∈ S ∧ mapAdj u v) p q

/-- The open cells of a grid, as a finite set of in-bounds coordinates. -/
def openCells (g : Grid) : Finset (ℤ × ℤ) :=
  ((Finset.Ico (0 : ℤ) ((g.headD []).length : ℤ)) ×ˢ
    (Finset.Ico (0 : ℤ) (g.length : ℤ))).filter
    (fun p => gridChar g p.1 p.2 = OPEN)

/-- Number of horizontal adjacent open pairs of a grid. -/
def hEdgeCount (g : Grid) : ℕ :=
  ((openCells g).filter (fun p => (p.1 + 1, p.2) ∈ openCells g)).card

/-- Number of vertical adjacent open pairs of a grid. -/
def vEdgeCount (g : Grid) : ℕ :=
  ((openCells g).filter (fun p => (p.1, p.2 + 1) ∈ openCells g)).card

/-- One step through open cells: move to a 4-adjacent cell that is open
and in bounds. -/
def stepOpen (grid : Grid) (W H : ℤ) (u v : Pos) : Prop :=
  isOpenCell grid W H v = true ∧ mapAdj u v

/-- Reachability through open cells, the precondition of the path claim. -/
def ReachOpen (grid : Grid) (W H : ℤ) (s t : Pos) : Prop :=
  Relation.ReflTransGen (stepOpen grid W H) s t

/-! ## Helper lemmas -/

/-- The floor height of any cell is either `WALL_HEIGHT` or `0`. -/
theorem cell_floor_height_cases (grid : Grid) (x y : ℤ) :
    cell_floor_height grid x y = WALL_HEIGHT ∨ cell_floor_height grid x y = 0 := by
  unfold cell_floor_height
  split
  · exact Or.inl rfl
  · split
    · exact Or.inl rfl
    · exact Or.inr rfl

/-- The floor height of any cell is at most `FREE_MAX_Z`. -/
theorem cell_floor_height_le (grid : Grid) (x y : ℤ) :
    cell_floor_height grid x y ≤ FREE_MAX_Z := by
  rcases cell_floor_height_cases grid x y with h | h <;> rw [h]
  · unfold WALL_HEIGHT FREE_MAX_Z; norm_num
  · unfold FREE_MAX_Z; norm_num

/-! ## C5: raycast east on the 3×3 box -/

/-- C5: on the 3×3 grid "###" / "# #" / "###", a ray cast from the cell
centre `(1.5, 1.5)` facing east (direction `(cos 0, sin 0) = (1, 0)`)
returns distance exactly `0.5`. -/
theorem cast_ray_east_3x3 :
    (cast_ray [['#', '#', '#'], ['#', ' ', '#'], ['#', '#', '#']]
      (3/2) (3/2) 1 0).1 = 1/2 := by
  with_unfolding_all decide

/-! ## C6: wall span ordering -/

/-- C6: for every viewport height, distance `> 0`, camera height and
midline, `compute_wall_span` returns an ordered pair `top ≤ bottom`. -/
theorem compute_wall_span_ordered (height : ℤ) (dist cam_z mid : ℚ)
    (h : 0 < dist) :
    (compute_wall_span height dist cam_z mid).1 ≤
      (compute_wall_span height dist cam_z mid).2 := by
  unfold compute_wall_span wallSpanSwap
  split
  · next hlt => exact le_of_lt hlt
  · next hge => exact le_of_not_lt hge

/-- Witness for C6 at `height = 40`, `dist = 2`, `cam_z = 1/2`,
`mid = 20`. -/
theorem compute_wall_span_ordered_witness :
    (0 : ℚ) < 2 ∧
    (compute_wall_span 40 2 (1/2) 20).1 ≤ (compute_wall_span 40 2 (1/2) 20).2 :=
  ⟨by decide, compute_wall_span_ordered 40 2 (1/2) 20 (by decide)⟩

/-! ## C7: floor collision (corrected) -/

/-- C7 counterexample: on the 1×1 open grid with the player at
`(0.5, 0.5)`, `z = -1`, `vz = -1`, neither of the claim's two trigger
cases holds (the occupied cell is not a wall, and `z ≤ FREE_MAX_Z`), yet
`resolve_floor_collision` changes `z` (to the open cell's floor height
`0`) and zeroes `vz`: the claim's "in all other cases z and vz are
unchanged" is false on the code. -/
theorem resolve_floor_collision_claim_cex :
    is_wall [[' ']] (pyInt (Player.x ⟨1/2, 1/2, -1, 0, 0, -1⟩))
        (pyInt (Player.y ⟨1/2, 1/2, -1, 0, 0, -1⟩)) = false
    ∧ ¬ FREE_MAX_Z < Player.z ⟨1/2, 1/2, -1, 0, 0, -1⟩
    ∧ (resolve_floor_collision [[' ']] ⟨1/2, 1/2, -1, 0, 0, -1⟩).z
        ≠ Player.z ⟨1/2, 1/2, -1, 0, 0, -1⟩
    ∧ (resolve_floor_collision [[' ']] ⟨1/2, 1/2, -1, 0, 0, -1⟩).vz
        ≠ Player.vz ⟨1/2, 1/2, -1, 0, 0, -1⟩ := by
  with_unfolding_all decide

/-- C7 (amended): `resolve_floor_collision` clamps `z` up to the floor
height of the occupied cell — `WALL_HEIGHT` for a wall or out-of-bounds
cell, `0` for an open cell — zeroing a negative `vz` (a nonnegative `vz`
is kept); it clamps `z` down to `FREE_MAX_Z` zeroing a positive `vz` (a
nonpositive `vz` is kept); when `z` already lies between the floor height
and `FREE_MAX_Z` the player is unchanged. -/
theorem resolve_floor_collision_spec (grid : Grid) (p : Player) :
    (p.z < cell_floor_height grid (pyInt p.x) (pyInt p.y) →
      (resolve_floor_collision grid p).z = cell_floor_height grid (pyInt p.x) (pyInt p.y)
      ∧ (p.vz < 0 → (resolve_floor_collision grid p).vz = 0)
      ∧ (0 ≤ p.vz → (resolve_floor_collision grid p).vz = p.vz))
    ∧ (FREE_MAX_Z < p.z →
      (resolve_floor_collision grid p).z = FREE_MAX_Z
      ∧ (0 < p.vz → (resolve_floor_collision grid p).vz = 0)
      ∧ (p.vz ≤ 0 → (resolve_floor_collision grid p).vz = p.vz))
    ∧ (cell_floor_height grid (pyInt p.x) (pyInt p.y) ≤ p.z → p.z ≤ FREE_MAX_Z →
      resolve_floor_collision grid p = p) := by
  have hle := cell_floor_height_le grid (pyInt p.x) (pyInt p.y)
  refine ⟨fun hlt => ?_, fun hgt => ?_, fun h1 h2 => ?_⟩
  · unfold resolve_floor_collision floorClamp ceilClamp
    rw [if_pos hlt]
    rw [if_neg (by simp only [not_lt]; exact hle)]
    refine ⟨rfl, fun hv => ?_, fun hv => ?_⟩
    · simp only [if_pos hv]
    · simp only [if_neg (not_lt.mpr hv)]
  · have hnl : ¬ p.z < cell_floor_height grid (pyInt p.x) (pyInt p.y) := by
      simp only [not_lt]; linarith
    unfold resolve_floor_collision floorClamp ceilClamp
    rw [if_neg hnl]
    rw [if_pos hgt]
    exact ⟨rfl, fun hv => by simp only [if_pos hv],
      fun hv => by simp only [if_neg (not_lt.mpr hv)]⟩
  · unfold resolve_floor_collision floorClamp ceilClamp
    rw [if_neg (not_lt.mpr h1)]
    rw [if_neg (not_lt.mpr h2)]

/-- Witness for C7 (amended), exercising the clamp-up case on a wall cell
and the clamp-down case above `FREE_MAX_Z`. -/
theorem resolve_floor_collision_spec_witness :
    (Player.z ⟨0, 0, 0, 0, 0, -1⟩ < cell_floor_height [['#']] (pyInt 0) (pyInt 0)
      ∧ (resolve_floor_collision [['#']] ⟨0, 0, 0, 0, 0, -1⟩).z
          = cell_floor_height [['#']] (pyInt 0) (pyInt 0)
      ∧ (resolve_floor_collision [['#']] ⟨0, 0, 0, 0, 0, -1⟩).vz = 0)
    ∧ (FREE_MAX_Z < Player.z ⟨0, 0, 7, 0, 0, 1⟩
      ∧ (resolve_floor_collision [[' ']] ⟨0, 0, 7, 0, 0, 1⟩).z = FREE_MAX_Z
      ∧ (resolve_floor_collision [[' ']] ⟨0, 0, 7, 0, 0, 1⟩).vz = 0) :=
  ⟨⟨by with_unfolding_all decide,
    ((resolve_floor_collision_spec [['#']] ⟨0, 0, 0, 0, 0, -1⟩).1
      (by with_unfolding_all decide)).1,
    ((resolve_floor_collision_spec [['#']] ⟨0, 0, 0, 0, 0, -1⟩).1
      (by with_unfolding_all decide)).2.1 (by with_unfolding_all decide)⟩,
   ⟨by with_unfolding_all decide,
    ((resolve_floor_collision_spec [[' ']] ⟨0, 0, 7, 0, 0, 1⟩).2.1
      (by with_unfolding_all decide)).1,
    ((resolve_floor_collision_spec [[' ']] ⟨0, 0, 7, 0, 0, 1⟩).2.1
      (by with_unfolding_all decide)).2.1 (by with_unfolding_all decide)⟩⟩

/-! ## C8: braille bit packing -/

/-- C8: the braille bit layout is exactly the fixed table of the source —
`(1, 3)` maps to `0x80` (and, packing a span that covers only sub-column
1, sub-row 3 of a cell, no other bit is set), column 0 rows 0–3 map to
`0x01, 0x02, 0x04, 0x40`, column 1 rows 0–3 map to
`0x08, 0x10, 0x20, 0x80`, and the glyph is the character at code point
`0x2800` plus the bitmask. -/
theorem braille_bits_packing :
    brailleBits 1 3 = 0x80
    ∧ brailleCellBits [100, 3] [0, 4] 0 0 = 0x80
    ∧ (brailleBits 0 0 = 0x01 ∧ brailleBits 0 1 = 0x02 ∧
       brailleBits 0 2 = 0x04 ∧ brailleBits 0 3 = 0x40)
    ∧ (brailleBits 1 0 = 0x08 ∧ brailleBits 1 1 = 0x10 ∧
       brailleBits 1 2 = 0x20 ∧ brailleBits 1 3 = 0x80)
    ∧ ∀ top_p bot_p xi y, brailleCellGlyph top_p bot_p xi y =
        Char.ofNat (0x2800 + brailleCellBits top_p bot_p xi y) :=
  ⟨by decide, by decide, by decide, by decide, fun _ _ _ _ => rfl⟩

/-! ## C9: independent-axis movement (corrected) -/

/-- C9 counterexample: on the grid "␣␣" / "#␣" with the player at
`(0.5, 0.5)` heading diagonally (`cos = sin = 1/2`, `forward = 1`,
`dt = 5/8`, so the displacement is `(+1, +1)`), the claim's Y test cell
`(int(old_x), int(new_y)) = (0, 1)` is a wall, yet the code moves `y`
to `new_y = 1.5` — because the source tests Y against the already-updated
`player.x`, not against `old_x`. -/
theorem move_horizontal_claim_cex :
    is_wall [[' ', ' '], ['#', ' ']]
        (pyInt (Player.x ⟨1/2, 1/2, 0, 0, 0, 0⟩))
        (pyInt ((1:ℚ)/2 + (1/2) * (1 * MOVE_SPEED * (5/8)))) = true
    ∧ (move_horizontal_default [[' ', ' '], ['#', ' ']] ⟨1/2, 1/2, 0, 0, 0, 0⟩
        (1/2) (1/2) 1 (5/8)).y = (1:ℚ)/2 + (1/2) * (1 * MOVE_SPEED * (5/8))
    ∧ Player.y ⟨1/2, 1/2, 0, 0, 0, 0⟩ ≠ (1:ℚ)/2 + (1/2) * (1 * MOVE_SPEED * (5/8)) := by
  with_unfolding_all decide

/-- C9 (amended): the axes are resolved sequentially — `x` moves to `nx`
exactly when the cell `(int(nx), int(old_y))` is not a wall (otherwise it
is unchanged), and `y` moves to `ny` exactly when the cell
`(int(x₁), int(ny))` is not a wall (otherwise unchanged), where `x₁` is
the X coordinate after the X resolution (the source's already-updated
`player.x`, not the old one). -/
theorem move_horizontal_default_axes (grid : Grid) (p : Player)
    (c s forward dt : ℚ) :
    (move_horizontal_default grid p c s forward dt).x =
      (if is_wall grid (pyInt (p.x + c * (forward * MOVE_SPEED * dt)))
          (pyInt p.y) = false
       then p.x + c * (forward * MOVE_SPEED * dt) else p.x)
    ∧ (move_horizontal_default grid p c s forward dt).y =
      (if is_wall grid
          (pyInt (if is_wall grid (pyInt (p.x + c * (forward * MOVE_SPEED * dt)))
              (pyInt p.y) = false
            then p.x + c * (forward * MOVE_SPEED * dt) else p.x))
          (pyInt (p.y + s * (forward * MOVE_SPEED * dt))) = false
       then p.y + s * (forward * MOVE_SPEED * dt) else p.y) := by
  unfold move_horizontal_default moveAxisX moveAxisY
  split_ifs <;> simp_all

/-! ## C10: start = goal returns the sentinel -/

/-- C10: for every grid and every in-bounds cell `s`,
`find_path_cells grid s s` returns `[s]` — the same value as the
unreachable-goal sentinel, so a caller treating single-element paths as
"no route" cannot tell an already-reached goal from an unreachable one. -/
theorem find_path_cells_self (grid : Grid) (s : Pos)
    (h : 0 ≤ s.1 ∧ s.1 < gridW grid ∧ 0 ≤ s.2 ∧ s.2 < gridH grid) :
    find_path_cells grid s s = [s] := by
  obtain ⟨m, hm⟩ : ∃ m, 2 * (gridW grid).toNat * (gridH grid).toNat = m + 1 := by
    have h1 : 0 < gridW grid := lt_of_le_of_lt h.1 h.2.1
    have h2 : 0 < gridH grid := lt_of_le_of_lt h.2.2.1 h.2.2.2
    have h1n : 0 < (gridW grid).toNat := by omega
    have h2n : 0 < (gridH grid).toNat := by omega
    have hN : 0 < 2 * (gridW grid).toNat * (gridH grid).toNat :=
      Nat.mul_pos (Nat.mul_pos (by omega) h1n) h2n
    exact Nat.exists_eq_succ_of_ne_zero (Nat.pos_iff_ne_zero.mp hN)
  unfold find_path_cells
  rw [if_pos ⟨h.1, h.2.1, h.2.2.1, h.2.2.2, h.1, h.2.1, h.2.2.1, h.2.2.2⟩]
  unfold bfsRun
  rw [hm]
  unfold bfsLoop
  simp [pathFromPrev, lookupPrev, reconstruct]

/-- Witness for C10 on the 1×1 open grid at `(0, 0)`. -/
theorem find_path_cells_self_witness :
    (0 ≤ ((0, 0) : Pos).1 ∧ ((0, 0) : Pos).1 < gridW [[' ']] ∧
      0 ≤ ((0, 0) : Pos).2 ∧ ((0, 0) : Pos).2 < gridH [[' ']])
    ∧ find_path_cells [[' ']] (0, 0) (0, 0) = [(0, 0)] :=
  ⟨by decide, find_path_cells_self [[' ']] (0, 0) (by decide)⟩

/-! ## C3, C4: DDA safety and termination -/

/-- Each iteration of the DDA march moves exactly one map coordinate by
its fixed `±1` step, so the potential "in-bounds positions remaining
ahead" strictly decreases: with fuel above the potential, the march
returns (no fuel exhaustion). -/
theorem castLoop_isSome (grid : Grid) (max_x max_y : ℤ) (ddx ddy : ℚ)
    (stx sty : ℤ) (hstx : stx = 1 ∨ stx = -1) (hsty : sty = 1 ∨ sty = -1) :
    ∀ (fuel : ℕ) (sdx sdy : ℚ) (mx my : ℤ),
      (if stx = 1 then max_x - mx else mx + 1).toNat +
        (if sty = 1 then max_y - my else my + 1).toNat < fuel →
      (castLoop grid max_x max_y ddx ddy stx sty fuel sdx sdy mx my).isSome = true := by
  intro fuel
  induction fuel with
  | zero => intro sdx sdy mx my h; omega
  | succ fuel ih =>
    intro sdx sdy mx my h
    unfold castLoop
    by_cases hlt : sdx < sdy
    · rw [if_pos hlt]
      by_cases hb : mx + stx < 0 ∨ max_x ≤ mx + stx ∨ my < 0 ∨ max_y ≤ my
      · rw [if_pos hb]; rfl
      · rw [if_neg hb]
        by_cases hw : gridChar grid (mx + stx) my = WALL
        · rw [if_pos hw]; rfl
        · rw [if_neg hw]
          apply ih
          push_neg at hb
          split_ifs at h ⊢ <;> rcases hstx with h1 | h1 <;> omega
    · rw [if_neg hlt]
      by_cases hb : mx < 0 ∨ max_x ≤ mx ∨ my + sty < 0 ∨ max_y ≤ my + sty
      · rw [if_pos hb]; rfl
      · rw [if_neg hb]
        by_cases hw : gridChar grid mx (my + sty) = WALL
        · rw [if_pos hw]; rfl
        · rw [if_neg hw]
          apply ih
          push_neg at hb
          split_ifs at h ⊢ <;> rcases hsty with h1 | h1 <;> omega

/-- C4: for every grid, origin and direction, the DDA marching loop
invoked by `cast_ray` (with the fuel `castFuel`) terminates: it returns a
bounds exit or a wall hit, never exhausting its fuel, because each
iteration moves exactly one integer map coordinate by its fixed `±1`
step. -/
theorem cast_ray_march_terminates (grid : Grid) (px py dir_x dir_y : ℚ) :
    (castRayLoopCall grid px py dir_x dir_y).isSome = true := by
  unfold castRayLoopCall
  apply castLoop_isSome
  · unfold rayStep; split
    · exact Or.inr rfl
    · exact Or.inl rfl
  · unfold rayStep; split
    · exact Or.inr rfl
    · exact Or.inl rfl
  · unfold castFuel rayStep
    by_cases h1 : dir_x < 0 <;> by_cases h2 : dir_y < 0 <;>
      simp only [if_pos, if_neg, h1, h2, reduceIte] <;> omega

/-- C3: the zero-direction components are replaced by the large delta
`1e30` (no division by zero is performed, and the nonzero case is the
true reciprocal magnitude); the distance returned by `cast_ray` always
lies in `[0, MAX_RAY_DIST]`; and a march that leaves the grid bounds
without striking a wall makes `cast_ray` return exactly the sentinel
`MAX_RAY_DIST`. -/
theorem cast_ray_clamped (grid : Grid) (px py dir_x dir_y : ℚ) :
    deltaDist 0 = 10^30
    ∧ (dir_x ≠ 0 → deltaDist dir_x = |1/dir_x|)
    ∧ 0 ≤ (cast_ray grid px py dir_x dir_y).1
    ∧ (cast_ray grid px py dir_x dir_y).1 ≤ MAX_RAY_DIST
    ∧ (∀ side, castRayLoopCall grid px py dir_x dir_y = some (RayExit.bounds side) →
        cast_ray grid px py dir_x dir_y = (MAX_RAY_DIST, side)) := by
  refine ⟨by unfold deltaDist; rw [if_pos rfl],
    fun hd => by unfold deltaDist; rw [if_neg hd], ?_, ?_, ?_⟩
  · unfold cast_ray
    rcases hres : castRayLoopCall grid px py dir_x dir_y with _ | e
    · norm_num [MAX_RAY_DIST]
    · rcases e with sd | ⟨d, sd⟩
      · norm_num [MAX_RAY_DIST]
      · exact le_min (le_max_right d 0) (by norm_num [MAX_RAY_DIST])
  · unfold cast_ray
    rcases hres : castRayLoopCall grid px py dir_x dir_y with _ | e
    · exact le_refl _
    · rcases e with sd | ⟨d, sd⟩
      · exact le_refl _
      · exact min_le_right _ _
  · intro side hres
    unfold cast_ray
    rw [hres]

/-- Witness for C3: a nonzero direction component, and a concrete
bounds-exit (the empty grid) returning the sentinel. -/
theorem cast_ray_clamped_witness :
    ((1 : ℚ) ≠ 0 ∧ deltaDist 1 = |1/1|)
    ∧ (castRayLoopCall [] 0 0 1 1 = some (RayExit.bounds 1)
       ∧ cast_ray [] 0 0 1 1 = (MAX_RAY_DIST, 1)) :=
  ⟨⟨by decide, (cast_ray_clamped [] 0 0 1 1).2.1 (by decide)⟩,
   ⟨by with_unfolding_all decide,
    (cast_ray_clamped [] 0 0 1 1).2.2.2.2 1 (by with_unfolding_all decide)⟩⟩

/-! ## BFS infrastructure: `prev` map and 4-adjacency -/

/-- A lookup that hits in the first list is unchanged by appending. -/
theorem lookupPrev_append_left (l1 l2 : List (Pos × Option Pos)) (p : Pos)
    (h : (lookupPrev l1 p).isSome = true) :
    lookupPrev (l1 ++ l2) p = lookupPrev l1 p := by
  induction l1 with
  | nil => simp [lookupPrev] at h
  | cons e rest ih =>
    by_cases he : e.1 = p
    · simp [lookupPrev, he]
    · simp only [lookupPrev, he, if_false, List.cons_append, if_neg he] at h ⊢
      exact ih h

/-- A lookup that misses the first list continues into the second. -/
theorem lookupPrev_append_right (l1 l2 : List (Pos × Option Pos)) (p : Pos)
    (h : lookupPrev l1 p = none) :
    lookupPrev (l1 ++ l2) p = lookupPrev l2 p := by
  induction l1 with
  | nil => simp
  | cons e rest ih =>
    by_cases he : e.1 = p
    · simp [lookupPrev, he] at h
    · simp only [lookupPrev, if_neg he] at h
      simpa only [List.cons_append, lookupPrev, if_neg he] using ih h

/-- A key is looked up successfully exactly when it occurs in the map. -/
theorem lookupPrev_isSome_iff (l : List (Pos × Option Pos)) (p : Pos) :
    (lookupPrev l p).isSome = true ↔ p ∈ l.map Prod.fst := by
  induction l with
  | nil => simp [lookupPrev]
  | cons e rest ih =>
    by_cases he : e.1 = p
    · simp [lookupPrev, he]
    · simp only [lookupPrev, if_neg he, List.map_cons, List.mem_cons, ih]
      exact ⟨Or.inr, fun h => h.elim (fun h => absurd h.symm he) id⟩

/-- A successful lookup returns a recorded entry. -/
theorem lookupPrev_mem (l : List (Pos × Option Pos)) (p : Pos) (v : Option Pos)
    (h : lookupPrev l p = some v) : (p, v) ∈ l := by
  induction l with
  | nil => simp [lookupPrev] at h
  | cons e rest ih =>
    by_cases he : e.1 = p
    · simp only [lookupPrev, if_pos he, Option.some.injEq] at h
      exact List.mem_cons.mpr (Or.inl (by rw [← he, ← h]))
    · simp only [lookupPrev, if_neg he] at h
      exact List.mem_cons.mpr (Or.inr (ih h))

/-- With duplicate-free keys, lookup retrieves each recorded entry. -/
theorem lookupPrev_of_mem_nodup (l : List (Pos × Option Pos)) (p : Pos)
    (v : Option Pos) (hnd : (l.map Prod.fst).Nodup) (hm : (p, v) ∈ l) :
    lookupPrev l p = some v := by
  induction l with
  | nil => simp at hm
  | cons e rest ih =>
    rcases List.mem_cons.mp hm with he | hr
    · rw [← he]
      simp [lookupPrev]
    · have hne : e.1 ≠ p := by
        intro hep
        have : p ∈ rest.map Prod.fst :=
          List.mem_map.mpr ⟨(p, v), hr, rfl⟩
        rw [List.map_cons, List.nodup_cons, hep] at hnd
        exact hnd.1 this
      simp only [lookupPrev, if_neg hne]
      exact ih (by rw [List.map_cons, List.nodup_cons] at hnd; exact hnd.2) hr

/-- A successfully looked-up key occurs at some index of the map. -/
theorem lookupPrev_exists_index (l : List (Pos × Option Pos)) (p : Pos)
    (h : (lookupPrev l p).isSome = true) :
    ∃ (j : ℕ) (hj : j < l.length), (l.get ⟨j, hj⟩).1 = p := by
  have hm := (lookupPrev_isSome_iff l p).mp h
  obtain ⟨e, hel, hep⟩ := List.mem_map.mp hm
  obtain ⟨n, hn⟩ := List.mem_iff_get.mp hel
  exact ⟨n.1, n.2, by rw [hn]; exact hep⟩

/-- The four admissible 4-neighbour positions. -/
theorem mapAdj_cases (u v : Pos) (h : mapAdj u v) :
    v = (u.1 + 1, u.2) ∨ v = (u.1 - 1, u.2) ∨
    v = (u.1, u.2 + 1) ∨ v = (u.1, u.2 - 1) := by
  unfold mapAdj at h
  have h1 : (v.1 = u.1 + 1 ∧ v.2 = u.2) ∨ (v.1 = u.1 - 1 ∧ v.2 = u.2) ∨
      (v.1 = u.1 ∧ v.2 = u.2 + 1) ∨ (v.1 = u.1 ∧ v.2 = u.2 - 1) := by omega
  rcases h1 with ⟨a, b⟩ | ⟨a, b⟩ | ⟨a, b⟩ | ⟨a, b⟩
  · exact Or.inl (Prod.ext a b)
  · exact Or.inr (Or.inl (Prod.ext a b))
  · exact Or.inr (Or.inr (Or.inl (Prod.ext a b)))
  · exact Or.inr (Or.inr (Or.inr (Prod.ext a b)))

/-- Every BFS offset yields a 4-adjacent position. -/
theorem mapAdj_dir (u d : Pos) (hd : d ∈ bfsDirs) :
    mapAdj u (u.1 + d.1, u.2 + d.2) := by
  unfold mapAdj
  have : d = ((1 : ℤ), (0 : ℤ)) ∨ d = (-1, 0) ∨ d = (0, 1) ∨ d = (0, -1) := by
    simpa [bfsDirs] using hd
  rcases this with h | h | h | h <;> subst h <;> simp

/-- Every 4-adjacent position is reached by some BFS offset. -/
theorem mapAdj_to_dir (u v : Pos) (h : mapAdj u v) :
    ∃ d ∈ bfsDirs, v = (u.1 + d.1, u.2 + d.2) := by
  rcases mapAdj_cases u v h with h1 | h1 | h1 | h1
  · exact ⟨(1, 0), by simp [bfsDirs], by simpa using h1⟩
  · exact ⟨(-1, 0), by simp [bfsDirs], by simpa [sub_eq_add_neg] using h1⟩
  · exact ⟨(0, 1), by simp [bfsDirs], by simpa using h1⟩
  · exact ⟨(0, -1), by simp [bfsDirs], by simpa [sub_eq_add_neg] using h1⟩

/-- An open cell is in bounds. -/
theorem isOpenCell_bounds (grid : Grid) (W H : ℤ) (p : Pos)
    (h : isOpenCell grid W H p = true) :
    0 ≤ p.1 ∧ p.1 < W ∧ 0 ≤ p.2 ∧ p.2 < H := by
  unfold isOpenCell at h
  rw [decide_eq_true_eq] at h
  exact h.1

/-- Invariant of the BFS loop state: duplicate-free keys, the start keyed
to `none`, every other entry open and keyed to an earlier, adjacent
parent, queue members keyed, every key reachable from the start through
open cells, and every key no longer in the queue fully expanded. -/
structure BfsInv (grid : Grid) (W H : ℤ) (start : Pos) (q : List Pos)
    (prev : List (Pos × Option Pos)) : Prop where
  nodup : (prev.map Prod.fst).Nodup
  start_mem : lookupPrev prev start = some none
  root_unique : ∀ e ∈ prev, e.2 = none → e.1 = start
  entry_parent : ∀ e ∈ prev, ∀ par, e.2 = some par →
    (lookupPrev prev par).isSome = true ∧ mapAdj par e.1 ∧
      isOpenCell grid W H e.1 = true
  chain : ∀ (i : ℕ) (hi : i < prev.length) (par : Pos),
    (prev.get ⟨i, hi⟩).2 = some par →
    ∃ (j : ℕ) (hj : j < prev.length), j < i ∧ (prev.get ⟨j, hj⟩).1 = par
  q_keyed : ∀ p ∈ q, (lookupPrev prev p).isSome = true
  reach : ∀ p, (lookupPrev prev p).isSome = true →
    ReachOpen grid W H start p
  closed : ∀ p, (lookupPrev prev p).isSome = true → p ∉ q →
    ∀ d ∈ bfsDirs, isOpenCell grid W H (p.1 + d.1, p.2 + d.2) = true →
      (lookupPrev prev (p.1 + d.1, p.2 + d.2)).isSome = true
  keys_inb : ∀ e ∈ prev, (0 ≤ e.1.1 ∧ e.1.1 < W ∧ 0 ≤ e.1.2 ∧ e.1.2 < H) ∨
    e.1 = start

/-- The number of recorded keys never exceeds the number of in-bounds
cells plus is bounded by the rectangle when the start is in bounds. -/
theorem bfsInv_length_le (grid : Grid) (W H : ℤ) (start : Pos)
    (q : List Pos) (prev : List (Pos × Option Pos))
    (hs : 0 ≤ start.1 ∧ start.1 < W ∧ 0 ≤ start.2 ∧ start.2 < H)
    (hinv : BfsInv grid W H start q prev) :
    prev.length ≤ W.toNat * H.toNat := by
  classical
  have hsub : (prev.map Prod.fst).toFinset ⊆
      (Finset.Ico (0 : ℤ) W) ×ˢ (Finset.Ico (0 : ℤ) H) := by
    intro p hp
    rw [List.mem_toFinset] at hp
    obtain ⟨e, he, hep⟩ := List.mem_map.mp hp
    rcases hinv.keys_inb e he with hb | hb
    · rw [← hep]
      simp only [Finset.mem_product, Finset.mem_Ico]
      exact ⟨⟨hb.1, hb.2.1⟩, ⟨hb.2.2.1, hb.2.2.2⟩⟩
    · rw [← hep, hb]
      simp only [Finset.mem_product, Finset.mem_Ico]
      exact ⟨⟨hs.1, hs.2.1⟩, ⟨hs.2.2.1, hs.2.2.2⟩⟩
  have hcard := Finset.card_le_card hsub
  rw [List.toFinset_card_of_nodup hinv.nodup] at hcard
  rw [List.length_map] at hcard
  calc prev.length ≤ ((Finset.Ico (0 : ℤ) W) ×ˢ (Finset.Ico (0 : ℤ) H)).card := hcard
    _ = W.toNat * H.toNat := by
        rw [Finset.card_product]
        simp [Int.card_Ico]

/-- Keys only grow under one scan step. -/
theorem bfsScan_keyed_mono (grid : Grid) (W H : ℤ) (p : Pos)
    (acc : List Pos × List (Pos × Option Pos)) (d : Pos) (x : Pos)
    (h : (lookupPrev acc.2 x).isSome = true) :
    (lookupPrev (bfsScan grid W H p acc d).2 x).isSome = true := by
  unfold bfsScan
  split
  · show (lookupPrev (acc.2 ++ [((p.1 + d.1, p.2 + d.2), some p)]) x).isSome = true
    rw [lookupPrev_append_left _ _ _ h]
    exact h
  · exact h

/-- Keys only grow under the whole scan fold. -/
theorem bfsFold_keyed_mono (grid : Grid) (W H : ℤ) (p : Pos) (l : List Pos) :
    ∀ (acc : List Pos × List (Pos × Option Pos)) (x : Pos),
      (lookupPrev acc.2 x).isSome = true →
      (lookupPrev ((l.foldl (bfsScan grid W H p) acc)).2 x).isSome = true := by
  induction l with
  | nil => intro acc x h; exact h
  | cons d rest ih =>
    intro acc x h
    exact ih (bfsScan grid W H p acc d) x (bfsScan_keyed_mono grid W H p acc d x h)

/-- One scan step preserves the BFS invariant (with the popped cell `p`
still conceptually at the queue front). -/
theorem bfsScan_inv (grid : Grid) (W H : ℤ) (start p : Pos)
    (acc : List Pos × List (Pos × Option Pos)) (d : Pos) (hd : d ∈ bfsDirs)
    (hp : (lookupPrev acc.2 p).isSome = true)
    (hinv : BfsInv grid W H start (p :: acc.1) acc.2) :
    BfsInv grid W H start (p :: (bfsScan grid W H p acc d).1)
      (bfsScan grid W H p acc d).2 := by
  unfold bfsScan
  split
  case isFalse => exact hinv
  case isTrue hcond =>
  obtain ⟨hopen, hnone⟩ := hcond
  show BfsInv grid W H start
    (p :: (acc.1 ++ [(p.1 + d.1, p.2 + d.2)]))
    (acc.2 ++ [((p.1 + d.1, p.2 + d.2), some p)])
  have hnotmem : (p.1 + d.1, p.2 + d.2) ∉ acc.2.map Prod.fst := by
    intro hmem
    have := (lookupPrev_isSome_iff acc.2 (p.1 + d.1, p.2 + d.2)).mpr hmem
    rw [hnone] at this
    simp at this
  have hlook_new : lookupPrev (acc.2 ++ [((p.1 + d.1, p.2 + d.2), some p)])
      (p.1 + d.1, p.2 + d.2) = some (some p) := by
    rw [lookupPrev_append_right _ _ _ hnone]
    simp [lookupPrev]
  have hlook_old : ∀ x : Pos, (lookupPrev acc.2 x).isSome = true →
      lookupPrev (acc.2 ++ [((p.1 + d.1, p.2 + d.2), some p)]) x =
        lookupPrev acc.2 x :=
    fun x hx => lookupPrev_append_left _ _ _ hx
  have hkeyed2 : ∀ x : Pos, (lookupPrev acc.2 x).isSome = true →
      (lookupPrev (acc.2 ++ [((p.1 + d.1, p.2 + d.2), some p)]) x).isSome = true :=
    fun x hx => by rw [hlook_old x hx]; exact hx
  have hkeyed_iff : ∀ x : Pos,
      (lookupPrev (acc.2 ++ [((p.1 + d.1, p.2 + d.2), some p)]) x).isSome = true ↔
        (lookupPrev acc.2 x).isSome = true ∨ x = (p.1 + d.1, p.2 + d.2) := by
    intro x
    rw [lookupPrev_isSome_iff, lookupPrev_isSome_iff, List.map_append,
      List.mem_append]
    simp
  constructor
  · -- nodup
    rw [List.map_append]
    simp only [List.map_cons, List.map_nil]
    rw [List.nodup_append]
    exact ⟨hinv.nodup, List.nodup_singleton _, by
      intro a ha hb
      simp only [List.mem_singleton] at hb
      rw [hb] at ha
      exact hnotmem ha⟩
  · -- start_mem
    rw [hlook_old start (by rw [hinv.start_mem]; rfl)]
    exact hinv.start_mem
  · -- root_unique
    intro e he hnonee
    rcases List.mem_append.mp he with h1 | h1
    · exact hinv.root_unique e h1 hnonee
    · simp only [List.mem_singleton] at h1
      rw [h1] at hnonee
      simp at hnonee
  · -- entry_parent
    intro e he par hpar
    rcases List.mem_append.mp he with h1 | h1
    · obtain ⟨hk, ha, ho⟩ := hinv.entry_parent e h1 par hpar
      exact ⟨hkeyed2 par hk, ha, ho⟩
    · simp only [List.mem_singleton] at h1
      rw [h1] at hpar ⊢
      simp only [Option.some.injEq] at hpar
      rw [← hpar]
      exact ⟨hkeyed2 p hp, mapAdj_dir p d hd, hopen⟩
  · -- chain
    intro i hi par hpar
    have hlen : (acc.2 ++ [((p.1 + d.1, p.2 + d.2), some p)]).length =
        acc.2.length + 1 := by simp
    by_cases hilt : i < acc.2.length
    · have hget : (acc.2 ++ [((p.1 + d.1, p.2 + d.2), some p)]).get ⟨i, hi⟩ =
          acc.2.get ⟨i, hilt⟩ := List.get_append i hilt
      rw [hget] at hpar
      obtain ⟨j, hj, hji, hkey⟩ := hinv.chain i hilt par hpar
      refine ⟨j, by omega, hji, ?_⟩
      rw [List.get_append j hj]
      exact hkey
    · have hieq : i = acc.2.length := by omega
      subst hieq
      have hgl : ((acc.2 ++ [((p.1 + d.1, p.2 + d.2), some p)]).get
          ⟨acc.2.length, hi⟩) = ((p.1 + d.1, p.2 + d.2), some p) := by
        simp
      rw [hgl] at hpar
      simp only [Option.some.injEq] at hpar
      obtain ⟨j, hj, hkey⟩ := lookupPrev_exists_index acc.2 p hp
      refine ⟨j, by omega, by omega, ?_⟩
      rw [List.get_append j hj, hkey, hpar]
  · -- q_keyed
    intro x hx
    rcases List.mem_cons.mp hx with h1 | h1
    · rw [h1]; exact hkeyed2 p hp
    · rcases List.mem_append.mp h1 with h2 | h2
      · exact hkeyed2 x (hinv.q_keyed x (List.mem_cons_of_mem p h2))
      · simp only [List.mem_singleton] at h2
        rw [h2, hlook_new]
        rfl
  · -- reach
    intro x hx
    rcases (hkeyed_iff x).mp hx with h1 | h1
    · exact hinv.reach x h1
    · rw [h1]
      exact Relation.ReflTransGen.tail (hinv.reach p hp)
        ⟨hopen, mapAdj_dir p d hd⟩
  · -- closed
    intro x hx hxq d2 hd2 hopen2
    have hxne : x ≠ (p.1 + d.1, p.2 + d.2) := by
      intro hxeq
      apply hxq
      rw [hxeq]
      exact List.mem_cons_of_mem p (List.mem_append.mpr (Or.inr (by simp)))
    have hxold : (lookupPrev acc.2 x).isSome = true := by
      rcases (hkeyed_iff x).mp hx with h1 | h1
      · exact h1
      · exact absurd h1 hxne
    have hxq_old : x ∉ p :: acc.1 := by
      intro hmem
      rcases List.mem_cons.mp hmem with h1 | h1
      · exact hxq (by rw [h1]; exact List.mem_cons_self p _)
      · exact hxq (List.mem_cons_of_mem p (List.mem_append.mpr (Or.inl h1)))
    exact hkeyed2 _ (hinv.closed x hxold hxq_old d2 hd2 hopen2)
  · -- keys_inb
    intro e he
    rcases List.mem_append.mp he with h1 | h1
    · exact hinv.keys_inb e h1
    · simp only [List.mem_singleton] at h1
      rw [h1]
      exact Or.inl (isOpenCell_bounds grid W H _ hopen)

/-- The whole scan fold preserves the BFS invariant (popped cell still at
the queue front). -/
theorem bfsFold_inv (grid : Grid) (W H : ℤ) (start p : Pos) (l : List Pos)
    (hl : ∀ d ∈ l, d ∈ bfsDirs) :
    ∀ (acc : List Pos × List (Pos × Option Pos)),
      (lookupPrev acc.2 p).isSome = true →
      BfsInv grid W H start (p :: acc.1) acc.2 →
      BfsInv grid W H start (p :: (l.foldl (bfsScan grid W H p) acc).1)
        (l.foldl (bfsScan grid W H p) acc).2 := by
  induction l with
  | nil => intro acc _ hinv; exact hinv
  | cons d rest ih =>
    intro acc hp hinv
    exact ih (fun e he => hl e (List.mem_cons_of_mem d he))
      (bfsScan grid W H p acc d)
      (bfsScan_keyed_mono grid W H p acc d p hp)
      (bfsScan_inv grid W H start p acc d (hl d (List.mem_cons_self d rest)) hp hinv)

/-- After the fold, every open neighbour of the popped cell along a
processed offset is keyed. -/
theorem bfsFold_covers (grid : Grid) (W H : ℤ) (p : Pos) (l : List Pos) :
    ∀ (acc : List Pos × List (Pos × Option Pos)) (d : Pos), d ∈ l →
      isOpenCell grid W H (p.1 + d.1, p.2 + d.2) = true →
      (lookupPrev ((l.foldl (bfsScan grid W H p) acc)).2
        (p.1 + d.1, p.2 + d.2)).isSome = true := by
  induction l with
  | nil => intro acc d hd; simp at hd
  | cons e rest ih =>
    intro acc d hd hopen
    rcases List.mem_cons.mp hd with h1 | h1
    · subst h1
      rw [List.foldl_cons]
      apply bfsFold_keyed_mono
      unfold bfsScan
      split
      case isTrue hcond =>
        show (lookupPrev (acc.2 ++ [((p.1 + d.1, p.2 + d.2), some p)])
          (p.1 + d.1, p.2 + d.2)).isSome = true
        rw [lookupPrev_append_right _ _ _ hcond.2]
        simp [lookupPrev]
      case isFalse hcond =>
        rcases Option.eq_none_or_eq_some (lookupPrev acc.2 (p.1 + d.1, p.2 + d.2))
          with hn | ⟨v, hv⟩
        · exact absurd ⟨hopen, hn⟩ hcond
        · rw [hv]; rfl
    · exact ih (bfsScan grid W H p acc e) d h1 hopen

/-- The fold adds exactly as many queue entries as `prev` entries. -/
theorem bfsFold_lengths (grid : Grid) (W H : ℤ) (p : Pos) (l : List Pos) :
    ∀ (acc : List Pos × List (Pos × Option Pos)),
      (l.foldl (bfsScan grid W H p) acc).1.length + acc.2.length =
        (l.foldl (bfsScan grid W H p) acc).2.length + acc.1.length ∧
      acc.2.length ≤ (l.foldl (bfsScan grid W H p) acc).2.length := by
  induction l with
  | nil =>
    intro acc
    rw [List.foldl_nil]
    omega
  | cons d rest ih =>
    intro acc
    have hstep : (bfsScan grid W H p acc d).1.length + acc.2.length =
        (bfsScan grid W H p acc d).2.length + acc.1.length ∧
        acc.2.length ≤ (bfsScan grid W H p acc d).2.length := by
      unfold bfsScan
      split
      · simp
        omega
      · omega
    have := ih (bfsScan grid W H p acc d)
    rw [List.foldl_cons]
    omega

/-- Unfolding equation of `bfsLoop` on an empty queue. -/
theorem bfsLoop_nil (grid : Grid) (W H : ℤ) (goal : Pos) (fuel : ℕ)
    (prev : List (Pos × Option Pos)) :
    bfsLoop grid W H goal (fuel + 1) [] prev = prev := rfl

/-- Unfolding equation of `bfsLoop` on a nonempty queue. -/
theorem bfsLoop_cons (grid : Grid) (W H : ℤ) (goal : Pos) (fuel : ℕ)
    (p : Pos) (qrest : List Pos) (prev : List (Pos × Option Pos)) :
    bfsLoop grid W H goal (fuel + 1) (p :: qrest) prev =
      if p = goal then prev
      else
        bfsLoop grid W H goal fuel
          (bfsDirs.foldl (bfsScan grid W H p) (qrest, prev)).1
          (bfsDirs.foldl (bfsScan grid W H p) (qrest, prev)).2 := rfl

/-- One full BFS iteration (pop `p`, scan all four offsets) preserves the
invariant for the new queue, and grows queue and map in lockstep. -/
theorem bfsIter_inv (grid : Grid) (W H : ℤ) (start p : Pos) (qrest : List Pos)
    (prev : List (Pos × Option Pos))
    (hinv : BfsInv grid W H start (p :: qrest) prev) :
    BfsInv grid W H start
      (bfsDirs.foldl (bfsScan grid W H p) (qrest, prev)).1
      (bfsDirs.foldl (bfsScan grid W H p) (qrest, prev)).2 := by
  have hp : (lookupPrev prev p).isSome = true :=
    hinv.q_keyed p (List.mem_cons_self p qrest)
  have hfold := bfsFold_inv grid W H start p bfsDirs (fun d hd => hd)
    (qrest, prev) hp hinv
  constructor
  · exact hfold.nodup
  · exact hfold.start_mem
  · exact hfold.root_unique
  · exact hfold.entry_parent
  · exact hfold.chain
  · intro x hx
    exact hfold.q_keyed x (List.mem_cons_of_mem p hx)
  · exact hfold.reach
  · intro x hx hxq d hd hopen
    by_cases hxp : x = p
    · subst hxp
      exact bfsFold_covers grid W H x bfsDirs (qrest, prev) d hd hopen
    · exact hfold.closed x hx
        (fun hmem => (List.mem_cons.mp hmem).elim hxp hxq) d hd hopen
  · exact hfold.keys_inb

/-- The prev-map parts of the invariant survive until the loop returns
(whatever the exit). -/
theorem bfsLoop_inv_final (grid : Grid) (W H : ℤ) (start goal : Pos) :
    ∀ (fuel : ℕ) (q : List Pos) (prev : List (Pos × Option Pos)),
      BfsInv grid W H start q prev →
      ∃ q2, BfsInv grid W H start q2 (bfsLoop grid W H goal fuel q prev) := by
  intro fuel
  induction fuel with
  | zero =>
    intro q prev hinv
    exact ⟨q, hinv⟩
  | succ fuel ih =>
    intro q prev hinv
    match q with
    | [] => exact ⟨[], by rw [bfsLoop_nil]; exact hinv⟩
    | p :: qrest =>
      by_cases hpg : p = goal
      · refine ⟨p :: qrest, ?_⟩
        rw [bfsLoop_cons, if_pos hpg]
        exact hinv
      · have hiter := bfsIter_inv grid W H start p qrest prev hinv
        have := ih (bfsDirs.foldl (bfsScan grid W H p) (qrest, prev)).1
          (bfsDirs.foldl (bfsScan grid W H p) (qrest, prev)).2 hiter
        rw [bfsLoop_cons, if_neg hpg]
        exact this

/-- With enough fuel, the goal is keyed in the final map exactly when it
is reachable from the start through open cells. -/
theorem bfsLoop_keyed_iff (grid : Grid) (W H : ℤ) (start goal : Pos)
    (hs : 0 ≤ start.1 ∧ start.1 < W ∧ 0 ≤ start.2 ∧ start.2 < H) :
    ∀ (fuel : ℕ) (q : List Pos) (prev : List (Pos × Option Pos)),
      BfsInv grid W H start q prev →
      q.length + 2 * (W.toNat * H.toNat) < fuel + 2 * prev.length →
      ((lookupPrev (bfsLoop grid W H goal fuel q prev) goal).isSome = true ↔
        ReachOpen grid W H start goal) := by
  intro fuel
  induction fuel with
  | zero =>
    intro q prev hinv hfuel
    have hlen := bfsInv_length_le grid W H start q prev hs hinv
    omega
  | succ fuel ih =>
    intro q prev hinv hfuel
    match q with
    | [] =>
      rw [bfsLoop_nil]
      constructor
      · exact hinv.reach goal
      · intro hreach
        clear ih
        induction hreach with
        | refl => rw [hinv.start_mem]; rfl
        | tail hsteps hstep ihr =>
          rename_i b c
          obtain ⟨d, hd, hc⟩ := mapAdj_to_dir b c hstep.2
          rw [hc]
          exact hinv.closed b ihr (List.not_mem_nil b) d hd
            (by rw [← hc]; exact hstep.1)
    | p :: qrest =>
      by_cases hpg : p = goal
      · rw [bfsLoop_cons, if_pos hpg]
        have hp : (lookupPrev prev p).isSome = true :=
          hinv.q_keyed p (List.mem_cons_self p qrest)
        constructor
        · intro _
          rw [← hpg]
          exact hinv.reach p hp
        · intro _
          rw [← hpg]
          exact hp
      · have hiter := bfsIter_inv grid W H start p qrest prev hinv
        have hlens := bfsFold_lengths grid W H p bfsDirs (qrest, prev)
        have hlen2 := bfsInv_length_le grid W H start _ _ hs hiter
        rw [bfsLoop_cons, if_neg hpg]
        apply ih _ _ hiter
        simp only at hlens
        simp only [List.length_cons] at hfuel
        omega

/-- Unfolding equation of `reconstruct` at a root entry. -/
theorem reconstruct_root (prev : List (Pos × Option Pos)) (fuel : ℕ) (cur : Pos)
    (h : lookupPrev prev cur = some none) :
    reconstruct prev (fuel + 1) cur = [cur] := by
  have hstep : reconstruct prev (fuel + 1) cur =
      (match lookupPrev prev cur with
       | some (some p2) => reconstruct prev fuel p2 ++ [cur]
       | _ => [cur]) := rfl
  rw [hstep, h]

/-- Unfolding equation of `reconstruct` at a child entry. -/
theorem reconstruct_child (prev : List (Pos × Option Pos)) (fuel : ℕ)
    (cur par : Pos) (h : lookupPrev prev cur = some (some par)) :
    reconstruct prev (fuel + 1) cur = reconstruct prev fuel par ++ [cur] := by
  have hstep : reconstruct prev (fuel + 1) cur =
      (match lookupPrev prev cur with
       | some (some p2) => reconstruct prev fuel p2 ++ [cur]
       | _ => [cur]) := rfl
  rw [hstep, h]

/-- Walking the parent chain from any recorded key yields a path that
starts at the BFS start, ends at the key, and whose consecutive cells are
4-adjacent with every cell after the head open. -/
theorem reconstruct_spec (grid : Grid) (W H : ℤ) (start : Pos)
    (prev : List (Pos × Option Pos))
    (hnd : (prev.map Prod.fst).Nodup)
    (hroot : ∀ e ∈ prev, e.2 = none → e.1 = start)
    (hpar : ∀ e ∈ prev, ∀ par, e.2 = some par →
      (lookupPrev prev par).isSome = true ∧ mapAdj par e.1 ∧
        isOpenCell grid W H e.1 = true)
    (hchain : ∀ (i : ℕ) (hi : i < prev.length) (par : Pos),
      (prev.get ⟨i, hi⟩).2 = some par →
      ∃ (j : ℕ) (hj : j < prev.length), j < i ∧ (prev.get ⟨j, hj⟩).1 = par) :
    ∀ (fuel : ℕ) (cur : Pos) (i : ℕ) (hi : i < prev.length),
      (prev.get ⟨i, hi⟩).1 = cur → i < fuel →
      (reconstruct prev fuel cur).head? = some start
      ∧ (reconstruct prev fuel cur).getLast? = some cur
      ∧ List.Chain' (fun a b => mapAdj a b ∧ isOpenCell grid W H b = true)
          (reconstruct prev fuel cur) := by
  intro fuel
  induction fuel with
  | zero => intro cur i hi _ hif; omega
  | succ fuel ih =>
    intro cur i hi hcur hif
    have hentry : (cur, (prev.get ⟨i, hi⟩).2) ∈ prev := by
      have hmem := List.get_mem prev i hi
      rw [← hcur]
      simpa using hmem
    have hlook : lookupPrev prev cur = some ((prev.get ⟨i, hi⟩).2) :=
      lookupPrev_of_mem_nodup prev cur _ hnd hentry
    rcases hv : (prev.get ⟨i, hi⟩).2 with _ | par
    · have hst : cur = start := by
        rw [← hcur]
        exact hroot (prev.get ⟨i, hi⟩) (List.get_mem prev i hi) hv
      rw [hv] at hlook
      rw [reconstruct_root prev fuel cur hlook]
      refine ⟨by rw [hst]; rfl, rfl, List.chain'_singleton cur⟩
    · rw [hv] at hlook
      obtain ⟨j, hj, hji, hkey⟩ := hchain i hi par hv
      obtain ⟨hhead, hlast, hchn⟩ := ih par j hj hkey (by omega)
      have hpf := hpar (prev.get ⟨i, hi⟩) (List.get_mem prev i hi) par hv
      rw [hcur] at hpf
      rw [reconstruct_child prev fuel cur par hlook]
      have hne : reconstruct prev fuel par ≠ [] := by
        intro h0
        rw [h0] at hhead
        simp at hhead
      obtain ⟨a, t, hl⟩ := List.exists_cons_of_ne_nil hne
      rw [hl] at hhead hlast hchn ⊢
      simp only [List.head?_cons, Option.some.injEq] at hhead
      refine ⟨by simp [hhead], ?_, ?_⟩
      · exact List.getLast?_concat _
      · rw [List.chain'_append]
        refine ⟨hchn, List.chain'_singleton cur, ?_⟩
        intro x hx y hy
        simp only [List.head?_cons, Option.mem_def, Option.some.injEq] at hy
        rw [hlast] at hx
        simp only [Option.mem_def, Option.some.injEq] at hx
        rw [← hx, ← hy]
        exact ⟨hpf.2.1, hpf.2.2⟩

/-- Unfolding equation of `pathFromPrev` on an unrecorded goal. -/
theorem pathFromPrev_none (prev : List (Pos × Option Pos)) (start goal : Pos)
    (h : lookupPrev prev goal = none) :
    pathFromPrev prev start goal = [start] := by
  unfold pathFromPrev
  rw [h]

/-- Unfolding equation of `pathFromPrev` on a recorded goal. -/
theorem pathFromPrev_some (prev : List (Pos × Option Pos)) (start goal : Pos)
    (v : Option Pos) (h : lookupPrev prev goal = some v) :
    pathFromPrev prev start goal = reconstruct prev prev.length goal := by
  unfold pathFromPrev
  rw [h]

/-- A chain of open-target steps whose head is open consists of open
cells only. -/
theorem chain_open_all (grid : Grid) (W H : ℤ) :
    ∀ (l : List Pos),
      List.Chain' (fun a b => mapAdj a b ∧ isOpenCell grid W H b = true) l →
      ∀ x, l.head? = some x → isOpenCell grid W H x = true →
      ∀ c ∈ l, isOpenCell grid W H c = true := by
  intro l
  induction l with
  | nil => intro _ x _ _ c hc; simp at hc
  | cons a t ih =>
    intro hchain x hx hxo c hc
    simp only [List.head?_cons, Option.some.injEq] at hx
    rcases List.mem_cons.mp hc with h1 | h1
    · rw [h1, hx]; exact hxo
    · rcases List.chain'_cons'.mp hchain with ⟨hrel, hchain2⟩
      cases t with
      | nil => simp at h1
      | cons b t2 =>
        have hb : isOpenCell grid W H b = true := (hrel b (by simp)).2
        exact ih hchain2 b rfl hb c h1

/-- The BFS invariant holds at the initial state of `find_path_cells`. -/
theorem bfsInv_init (grid : Grid) (W H : ℤ) (start : Pos) :
    BfsInv grid W H start [start] [(start, none)] := by
  constructor
  · simp
  · simp [lookupPrev]
  · intro e he _
    simp only [List.mem_singleton] at he
    rw [he]
  · intro e he par hp
    simp only [List.mem_singleton] at he
    rw [he] at hp
    simp at hp
  · intro i hi par hp
    simp only [List.length_singleton] at hi
    have hi0 : i = 0 := by omega
    subst hi0
    simp at hp
  · intro p hp
    simp only [List.mem_singleton] at hp
    rw [hp]
    simp [lookupPrev]
  · intro p hp
    unfold lookupPrev at hp
    by_cases hps : start = p
    · rw [← hps]
      exact Relation.ReflTransGen.refl
    · rw [if_neg (by simpa using hps)] at hp
      simp [lookupPrev] at hp
  · intro p hp hq
    exfalso
    apply hq
    unfold lookupPrev at hp
    by_cases hps : start = p
    · rw [← hps]; exact List.mem_singleton_self start
    · rw [if_neg (by simpa using hps)] at hp
      simp [lookupPrev] at hp
  · intro e he
    simp only [List.mem_singleton] at he
    rw [he]
    exact Or.inr rfl

/-! ## C2: functional correctness of `find_path_cells` -/

/-- C2: for in-bounds open `start` and `goal`, when `goal` is reachable
from `start` through open cells `find_path_cells` returns a path whose
first element is `start`, whose last element is `goal`, whose consecutive
cells are 4-adjacent, and whose cells are all open; when unreachable it
returns `[start]`; and when either endpoint is out of bounds it returns
`[start]`. -/
theorem find_path_cells_spec (grid : Grid) (start goal : Pos) :
    ((0 ≤ start.1 ∧ start.1 < gridW grid ∧ 0 ≤ start.2 ∧ start.2 < gridH grid) →
     (0 ≤ goal.1 ∧ goal.1 < gridW grid ∧ 0 ≤ goal.2 ∧ goal.2 < gridH grid) →
     isOpenCell grid (gridW grid) (gridH grid) start = true →
     isOpenCell grid (gridW grid) (gridH grid) goal = true →
     (ReachOpen grid (gridW grid) (gridH grid) start goal →
        (find_path_cells grid start goal).head? = some start
        ∧ (find_path_cells grid start goal).getLast? = some goal
        ∧ List.Chain' mapAdj (find_path_cells grid start goal)
        ∧ ∀ c ∈ find_path_cells grid start goal,
            isOpenCell grid (gridW grid) (gridH grid) c = true)
     ∧ (¬ ReachOpen grid (gridW grid) (gridH grid) start goal →
        find_path_cells grid start goal = [start]))
    ∧ (¬ ((0 ≤ start.1 ∧ start.1 < gridW grid ∧ 0 ≤ start.2 ∧ start.2 < gridH grid)
          ∧ (0 ≤ goal.1 ∧ goal.1 < gridW grid ∧ 0 ≤ goal.2 ∧ goal.2 < gridH grid)) →
        find_path_cells grid start goal = [start]) := by
  constructor
  · intro hsb hgb hso hgo
    have hcond : 0 ≤ start.1 ∧ start.1 < gridW grid ∧ 0 ≤ start.2 ∧
        start.2 < gridH grid ∧ 0 ≤ goal.1 ∧ goal.1 < gridW grid ∧
        0 ≤ goal.2 ∧ goal.2 < gridH grid :=
      ⟨hsb.1, hsb.2.1, hsb.2.2.1, hsb.2.2.2, hgb.1, hgb.2.1, hgb.2.2.1, hgb.2.2.2⟩
    have hfp : find_path_cells grid start goal =
        pathFromPrev (bfsRun grid start goal) start goal := by
      unfold find_path_cells
      rw [if_pos hcond]
    have hinv0 := bfsInv_init grid (gridW grid) (gridH grid) start
    have hiff := bfsLoop_keyed_iff grid (gridW grid) (gridH grid) start goal hsb
      (2 * (gridW grid).toNat * (gridH grid).toNat) [start] [(start, none)] hinv0
      (by
        simp only [List.length_singleton, List.length_cons, List.length_nil]
        rw [Nat.mul_assoc]
        omega)
    obtain ⟨qF, hinvF⟩ := bfsLoop_inv_final grid (gridW grid) (gridH grid) start
      goal (2 * (gridW grid).toNat * (gridH grid).toNat) [start] [(start, none)]
      hinv0
    constructor
    · intro hreach
      have hkey : (lookupPrev (bfsRun grid start goal) goal).isSome = true :=
        hiff.mpr hreach
      obtain ⟨v, hv⟩ := Option.isSome_iff_exists.mp hkey
      obtain ⟨i, hi, hkeyi⟩ := lookupPrev_exists_index _ goal hkey
      have hrec := reconstruct_spec grid (gridW grid) (gridH grid) start
        (bfsRun grid start goal) hinvF.nodup hinvF.root_unique
        hinvF.entry_parent hinvF.chain (bfsRun grid start goal).length goal
        i hi hkeyi hi
      obtain ⟨hh, hl, hc⟩ := hrec
      rw [hfp, pathFromPrev_some _ _ _ v hv]
      refine ⟨hh, hl, hc.imp (fun a b hab => hab.1), ?_⟩
      exact chain_open_all grid (gridW grid) (gridH grid) _ hc start hh hso
    · intro hnreach
      have hkey : lookupPrev (bfsRun grid start goal) goal = none := by
        cases hlk : lookupPrev (bfsRun grid start goal) goal with
        | none => rfl
        | some v =>
          exfalso
          apply hnreach
          apply hiff.mp
          show (lookupPrev (bfsRun grid start goal) goal).isSome = true
          rw [hlk]
          rfl
      rw [hfp, pathFromPrev_none _ _ _ hkey]
  · intro hnb
    unfold find_path_cells
    rw [if_neg (fun hc => hnb ⟨⟨hc.1, hc.2.1, hc.2.2.1, hc.2.2.2.1⟩,
      ⟨hc.2.2.2.2.1, hc.2.2.2.2.2.1, hc.2.2.2.2.2.2.1, hc.2.2.2.2.2.2.2⟩⟩)]

/-- Witness for C2 on the 1×2 open grid, with the goal one step east of
the start. -/
theorem find_path_cells_spec_witness :
    (find_path_cells [[' ', ' ']] (0, 0) (1, 0)).head? = some (0, 0)
    ∧ (find_path_cells [[' ', ' ']] (0, 0) (1, 0)).getLast? = some (1, 0)
    ∧ List.Chain' mapAdj (find_path_cells [[' ', ' ']] (0, 0) (1, 0))
    ∧ ∀ c ∈ find_path_cells [[' ', ' ']] (0, 0) (1, 0),
        isOpenCell [[' ', ' ']] (gridW [[' ', ' ']]) (gridH [[' ', ' ']]) c = true :=
  ((find_path_cells_spec [[' ', ' ']] (0, 0) (1, 0)).1 (by decide) (by decide)
    (by decide) (by decide)).1
    (Relation.ReflTransGen.single ⟨by decide, by unfold mapAdj; decide⟩)

/-! ## C1: the generated maze is a bordered perfect maze -/

/-- Membership in the `cell_w × cell_h` cell lattice. -/
def latOK (cw ch : ℤ) (c : ℤ × ℤ) : Prop :=
  0 ≤ c.1 ∧ c.1 < cw ∧ 0 ≤ c.2 ∧ c.2 < ch

/-- Map cell between the nodes of `c` and of its east neighbour. -/
def hMidOf (c : ℤ × ℤ) : ℤ × ℤ := (2 * c.1 + 2, 2 * c.2 + 1)

/-- Map cell between the nodes of `c` and of its south neighbour. -/
def vMidOf (c : ℤ × ℤ) : ℤ × ℤ := (2 * c.1 + 1, 2 * c.2 + 2)

/-- `nodeOf` is injective. -/
theorem nodeOf_inj : Function.Injective nodeOf := by
  intro a b h
  unfold nodeOf at h
  have h1 : 2 * a.1 + 1 = 2 * b.1 + 1 := congrArg Prod.fst h
  have h2 : 2 * a.2 + 1 = 2 * b.2 + 1 := congrArg Prod.snd h
  exact Prod.ext (by omega) (by omega)

/-- 4-adjacency is symmetric. -/
theorem mapAdj_symm (p q : ℤ × ℤ) (h : mapAdj p q) : mapAdj q p := by
  unfold mapAdj at h ⊢
  omega

/-- Invariant of the carving loop: visited cells lie in the lattice and
include the root; stacked cells are visited; the open set is the disjoint
union of the visited nodes and a set of wall-removal midpoints, one per
carve, each sitting between two visited cells; and every open cell is
connected to the root node inside the open set. -/
structure MazeInv (cw ch : ℤ) (s : MazeState) : Prop where
  vis_lat : ∀ c ∈ s.visited, latOK cw ch c
  root_vis : (0, 0) ∈ s.visited
  stack_vis : ∀ c ∈ s.stack, c ∈ s.visited
  mids : ∃ M : Finset (ℤ × ℤ),
    s.openS = s.visited.image nodeOf ∪ M ∧
    Disjoint (s.visited.image nodeOf) M ∧
    (∀ m ∈ M,
      (∃ c, c ∈ s.visited ∧ (c.1 + 1, c.2) ∈ s.visited ∧ m = hMidOf c) ∨
      (∃ c, c ∈ s.visited ∧ (c.1, c.2 + 1) ∈ s.visited ∧ m = vMidOf c)) ∧
    M.card + 1 = s.visited.card
  conn : ∀ p ∈ s.openS, ReachIn s.openS (nodeOf (0, 0)) p

/-- Reachability inside a set is monotone in the set. -/
theorem ReachIn_mono (S T : Finset (ℤ × ℤ)) (hsub : S ⊆ T) (p q : ℤ × ℤ)
    (h : ReachIn S p q) : ReachIn T p q := by
  induction h with
  | refl => exact Relation.ReflTransGen.refl
  | tail hab hbc ih =>
    exact Relation.ReflTransGen.tail ih ⟨hsub hbc.1, hsub hbc.2.1, hbc.2.2⟩

/-- Membership in a conditional singleton. -/
theorem mem_if_singleton (b : Bool) (x n : ℤ × ℤ)
    (h : n ∈ (if b = true then [x] else [])) : b = true ∧ n = x := by
  cases b
  · simp at h
  · simp at h
    exact ⟨rfl, h⟩

/-- Members of `cellNeighbors` are unvisited lattice cells one step from
`c`. -/
theorem cellNeighbors_mem (cw ch : ℤ) (visited : Finset (ℤ × ℤ))
    (c n : ℤ × ℤ) (h : n ∈ cellNeighbors cw ch visited c) :
    latOK cw ch n ∧ n ∉ visited ∧
      (n = (c.1 + 1, c.2) ∨ n = (c.1 - 1, c.2) ∨
       n = (c.1, c.2 + 1) ∨ n = (c.1, c.2 - 1)) := by
  unfold cellNeighbors at h
  have hstep : ∀ v : ℤ × ℤ, neighCheck cw ch visited v = true ∧ n = v →
      latOK cw ch n ∧ n ∉ visited := by
    intro v hv
    rw [hv.2]
    unfold neighCheck at hv
    rw [decide_eq_true_eq] at hv
    exact ⟨⟨hv.1.1, hv.1.2.1, hv.1.2.2.1, hv.1.2.2.2.1⟩, hv.1.2.2.2.2⟩
  rcases List.mem_append.mp h with h1 | h1
  · rcases List.mem_append.mp h1 with h2 | h2
    · rcases List.mem_append.mp h2 with h3 | h3
      · have := mem_if_singleton _ _ _ h3
        exact ⟨(hstep _ this).1, (hstep _ this).2, Or.inr (Or.inl this.2)⟩
      · have := mem_if_singleton _ _ _ h3
        exact ⟨(hstep _ this).1, (hstep _ this).2, Or.inl this.2⟩
    · have := mem_if_singleton _ _ _ h2
      exact ⟨(hstep _ this).1, (hstep _ this).2,
        Or.inr (Or.inr (Or.inr this.2))⟩
  · have := mem_if_singleton _ _ _ h1
    exact ⟨(hstep _ this).1, (hstep _ this).2, Or.inr (Or.inr (Or.inl this.2))⟩

/-- The randomly chosen neighbour is a member of the neighbour list. -/
theorem chosen_mem (m : ℤ × ℤ) (ms : List (ℤ × ℤ)) (k : ℕ) :
    (m :: ms).getD (k % (m :: ms).length) (0, 0) ∈ m :: ms := by
  have hlt : k % (m :: ms).length < (m :: ms).length :=
    Nat.mod_lt k (by simp)
  rw [List.getD_eq_getElem _ _ hlt]
  exact List.getElem_mem _

/-- `hMidOf` is injective. -/
theorem hMidOf_inj (a b : ℤ × ℤ) (h : hMidOf a = hMidOf b) : a = b := by
  unfold hMidOf at h
  rw [Prod.mk.injEq] at h
  exact Prod.ext (by omega) (by omega)

/-- `vMidOf` is injective. -/
theorem vMidOf_inj (a b : ℤ × ℤ) (h : vMidOf a = vMidOf b) : a = b := by
  unfold vMidOf at h
  rw [Prod.mk.injEq] at h
  exact Prod.ext (by omega) (by omega)

/-- Horizontal and vertical midpoints never coincide. -/
theorem hMid_ne_vMid (a b : ℤ × ℤ) : hMidOf a ≠ vMidOf b := by
  intro h
  unfold hMidOf vMidOf at h
  rw [Prod.mk.injEq] at h
  omega

/-- Both coordinates of a node are odd. -/
theorem nodeOf_parity (b : ℤ × ℤ) :
    (nodeOf b).1 % 2 = 1 ∧ (nodeOf b).2 % 2 = 1 := by
  dsimp only [nodeOf]
  omega

/-- Every recorded midpoint has an even coordinate where nodes are odd. -/
theorem mid_parity_of_class (visited : Finset (ℤ × ℤ)) (m : ℤ × ℤ)
    (h : (∃ c, c ∈ visited ∧ (c.1 + 1, c.2) ∈ visited ∧ m = hMidOf c) ∨
         (∃ c, c ∈ visited ∧ (c.1, c.2 + 1) ∈ visited ∧ m = vMidOf c)) :
    (m.1 % 2 = 0 ∧ m.2 % 2 = 1) ∨ (m.1 % 2 = 1 ∧ m.2 % 2 = 0) := by
  rcases h with ⟨c, _, _, hm⟩ | ⟨c, _, _, hm⟩ <;> rw [hm]
  · left; dsimp only [hMidOf]; omega
  · right; dsimp only [vMidOf]; omega

/-- Common continuation of the carve-step invariant proof, once the
midpoint has been identified per neighbour direction. -/
theorem mazeInv_carve_common (cw ch : ℤ) (s : MazeState) (c n : ℤ × ℤ)
    (M : Finset (ℤ × ℤ)) (h : MazeInv cw ch s) (hc : c ∈ s.visited)
    (hnlat : latOK cw ch n) (hnnot : n ∉ s.visited)
    (hSeq : s.openS = s.visited.image nodeOf ∪ M)
    (hdisj : Disjoint (s.visited.image nodeOf) M)
    (hclass : ∀ m ∈ M,
      (∃ a, a ∈ s.visited ∧ (a.1 + 1, a.2) ∈ s.visited ∧ m = hMidOf a) ∨
      (∃ a, a ∈ s.visited ∧ (a.1, a.2 + 1) ∈ s.visited ∧ m = vMidOf a))
    (hcard : M.card + 1 = s.visited.card)
    (mid : ℤ × ℤ)
    (hmid_def : (((nodeOf c).1 + (nodeOf n).1) / 2,
        ((nodeOf c).2 + (nodeOf n).2) / 2) = mid)
    (hmid_shape :
      (∃ a, a ∈ insert n s.visited ∧ (a.1 + 1, a.2) ∈ insert n s.visited ∧
        mid = hMidOf a) ∨
      (∃ a, a ∈ insert n s.visited ∧ (a.1, a.2 + 1) ∈ insert n s.visited ∧
        mid = vMidOf a))
    (hmid_parity : (mid.1 % 2 = 0 ∧ mid.2 % 2 = 1) ∨
      (mid.1 % 2 = 1 ∧ mid.2 % 2 = 0))
    (hnotM : mid ∉ M)
    (hadj1 : mapAdj (nodeOf c) mid) (hadj2 : mapAdj mid (nodeOf n)) :
    MazeInv cw ch (carveStep s c n) := by
  have hopen2 : (carveStep s c n).openS =
      (insert n s.visited).image nodeOf ∪ insert mid M := by
    show insert (((nodeOf c).1 + (nodeOf n).1) / 2,
        ((nodeOf c).2 + (nodeOf n).2) / 2) (insert (nodeOf n) s.openS) = _
    rw [hmid_def, hSeq, Finset.image_insert]
    ext x
    simp only [Finset.mem_insert, Finset.mem_union]
    tauto
  constructor
  · -- vis_lat
    intro x hx
    rcases Finset.mem_insert.mp hx with h1 | h1
    · rw [h1]; exact hnlat
    · exact h.vis_lat x h1
  · -- root_vis
    exact Finset.mem_insert_of_mem h.root_vis
  · -- stack_vis
    intro x hx
    rcases List.mem_cons.mp hx with h1 | h1
    · rw [h1]; exact Finset.mem_insert_self n s.visited
    · exact Finset.mem_insert_of_mem (h.stack_vis x h1)
  · -- mids
    refine ⟨insert mid M, hopen2, ?_, ?_, ?_⟩
    · rw [Finset.disjoint_left]
      intro x hx hx2
      have hxodd : x.1 % 2 = 1 ∧ x.2 % 2 = 1 := by
        obtain ⟨b, _, hb⟩ := Finset.mem_image.mp hx
        rw [← hb]
        exact nodeOf_parity b
      rcases Finset.mem_insert.mp hx2 with h1 | h1
      · rw [h1] at hxodd
        rcases hmid_parity with ⟨h2, _⟩ | ⟨_, h2⟩ <;> omega
      · have := mid_parity_of_class s.visited x (hclass x h1)
        rcases this with ⟨h2, _⟩ | ⟨_, h2⟩ <;> omega
    · intro m hm
      rcases Finset.mem_insert.mp hm with h1 | h1
      · rw [h1]; exact hmid_shape
      · rcases hclass m h1 with ⟨a, ha1, ha2, ha3⟩ | ⟨a, ha1, ha2, ha3⟩
        · exact Or.inl ⟨a, Finset.mem_insert_of_mem ha1,
            Finset.mem_insert_of_mem ha2, ha3⟩
        · exact Or.inr ⟨a, Finset.mem_insert_of_mem ha1,
            Finset.mem_insert_of_mem ha2, ha3⟩
    · show (insert mid M).card + 1 = (insert n s.visited).card
      rw [Finset.card_insert_of_not_mem hnotM,
        Finset.card_insert_of_not_mem hnnot]
      omega
  · -- conn
    intro p hp
    have hsub : s.openS ⊆ (carveStep s c n).openS := by
      intro x hx
      exact Finset.mem_insert_of_mem (Finset.mem_insert_of_mem hx)
    have hnodeC : nodeOf c ∈ s.openS := by
      rw [hSeq]
      exact Finset.mem_union_left M (Finset.mem_image_of_mem nodeOf hc)
    have hnodeC2 : nodeOf c ∈ (carveStep s c n).openS := hsub hnodeC
    have hmid2 : mid ∈ (carveStep s c n).openS := by
      show mid ∈ insert (((nodeOf c).1 + (nodeOf n).1) / 2,
          ((nodeOf c).2 + (nodeOf n).2) / 2) (insert (nodeOf n) s.openS)
      rw [hmid_def]
      exact Finset.mem_insert_self mid _
    have hnodeN2 : nodeOf n ∈ (carveStep s c n).openS :=
      Finset.mem_insert_of_mem (Finset.mem_insert_self (nodeOf n) s.openS)
    have hreachC : ReachIn (carveStep s c n).openS (nodeOf (0, 0)) (nodeOf c) :=
      ReachIn_mono s.openS _ hsub _ _ (h.conn (nodeOf c) hnodeC)
    have hreachMid : ReachIn (carveStep s c n).openS (nodeOf (0, 0)) mid :=
      Relation.ReflTransGen.tail hreachC ⟨hnodeC2, hmid2, hadj1⟩
    have hreachN : ReachIn (carveStep s c n).openS (nodeOf (0, 0)) (nodeOf n) :=
      Relation.ReflTransGen.tail hreachMid ⟨hmid2, hnodeN2, hadj2⟩
    have hp2 : p ∈ insert mid (insert (nodeOf n) s.openS) := by
      have : (carveStep s c n).openS =
          insert (((nodeOf c).1 + (nodeOf n).1) / 2,
            ((nodeOf c).2 + (nodeOf n).2) / 2) (insert (nodeOf n) s.openS) := rfl
      rw [this, hmid_def] at hp
      exact hp
    rcases Finset.mem_insert.mp hp2 with h1 | h1
    · rw [h1]; exact hreachMid
    · rcases Finset.mem_insert.mp h1 with h2 | h2
      · rw [h2]; exact hreachN
      · exact ReachIn_mono s.openS _ hsub _ _ (h.conn p h2)

/-- Carving toward any admissible neighbour preserves the invariant. -/
theorem mazeInv_carve (cw ch : ℤ) (s : MazeState) (c n : ℤ × ℤ)
    (hc : c ∈ s.visited) (hn : n ∈ cellNeighbors cw ch s.visited c)
    (h : MazeInv cw ch s) :
    MazeInv cw ch (carveStep s c n) := by
  obtain ⟨hnlat, hnnot, hndir⟩ := cellNeighbors_mem cw ch s.visited c n hn
  obtain ⟨M, hSeq, hdisj, hclass, hcard⟩ := h.mids
  rcases hndir with hdir | hdir | hdir | hdir
  · -- east neighbour: the midpoint is `hMidOf c`
    subst hdir
    refine mazeInv_carve_common cw ch s c _ M h hc hnlat hnnot hSeq hdisj hclass
      hcard (hMidOf c) ?_ ?_ ?_ ?_ ?_ ?_
    · dsimp only [nodeOf, hMidOf]
      rw [Prod.mk.injEq]
      omega
    · exact Or.inl ⟨c, Finset.mem_insert_of_mem hc,
        Finset.mem_insert_self _ _, rfl⟩
    · left
      dsimp only [hMidOf]
      omega
    · intro hmem
      rcases hclass _ hmem with ⟨a, ha1, ha2, ha3⟩ | ⟨a, ha1, ha2, ha3⟩
      · rw [hMidOf_inj a c ha3.symm] at ha2
        exact hnnot ha2
      · exact hMid_ne_vMid c a ha3
    · unfold mapAdj
      dsimp only [nodeOf, hMidOf]
      omega
    · unfold mapAdj
      dsimp only [nodeOf, hMidOf]
      omega
  · -- west neighbour: the midpoint is `hMidOf n`
    subst hdir
    refine mazeInv_carve_common cw ch s c _ M h hc hnlat hnnot hSeq hdisj hclass
      hcard (hMidOf (c.1 - 1, c.2)) ?_ ?_ ?_ ?_ ?_ ?_
    · dsimp only [nodeOf, hMidOf]
      rw [Prod.mk.injEq]
      omega
    · refine Or.inl ⟨(c.1 - 1, c.2), Finset.mem_insert_self _ _, ?_, rfl⟩
      rw [show ((c.1 - 1, c.2).1 + 1, (c.1 - 1, c.2).2) = c from
        Prod.ext (by dsimp only; omega) (by dsimp only)]
      exact Finset.mem_insert_of_mem hc
    · left
      dsimp only [hMidOf]
      omega
    · intro hmem
      rcases hclass _ hmem with ⟨a, ha1, ha2, ha3⟩ | ⟨a, ha1, ha2, ha3⟩
      · rw [← hMidOf_inj a (c.1 - 1, c.2) ha3.symm] at hnnot
        exact hnnot ha1
      · exact hMid_ne_vMid (c.1 - 1, c.2) a ha3
    · unfold mapAdj
      dsimp only [nodeOf, hMidOf]
      omega
    · unfold mapAdj
      dsimp only [nodeOf, hMidOf]
      omega
  · -- south neighbour: the midpoint is `vMidOf c`
    subst hdir
    refine mazeInv_carve_common cw ch s c _ M h hc hnlat hnnot hSeq hdisj hclass
      hcard (vMidOf c) ?_ ?_ ?_ ?_ ?_ ?_
    · dsimp only [nodeOf, vMidOf]
      rw [Prod.mk.injEq]
      omega
    · exact Or.inr ⟨c, Finset.mem_insert_of_mem hc,
        Finset.mem_insert_self _ _, rfl⟩
    · right
      dsimp only [vMidOf]
      omega
    · intro hmem
      rcases hclass _ hmem with ⟨a, ha1, ha2, ha3⟩ | ⟨a, ha1, ha2, ha3⟩
      · exact hMid_ne_vMid a c ha3.symm
      · rw [vMidOf_inj a c ha3.symm] at ha2
        exact hnnot ha2
    · unfold mapAdj
      dsimp only [nodeOf, vMidOf]
      omega
    · unfold mapAdj
      dsimp only [nodeOf, vMidOf]
      omega
  · -- north neighbour: the midpoint is `vMidOf n`
    subst hdir
    refine mazeInv_carve_common cw ch s c _ M h hc hnlat hnnot hSeq hdisj hclass
      hcard (vMidOf (c.1, c.2 - 1)) ?_ ?_ ?_ ?_ ?_ ?_
    · dsimp only [nodeOf, vMidOf]
      rw [Prod.mk.injEq]
      omega
    · refine Or.inr ⟨(c.1, c.2 - 1), Finset.mem_insert_self _ _, ?_, rfl⟩
      rw [show ((c.1, c.2 - 1).1, (c.1, c.2 - 1).2 + 1) = c from
        Prod.ext (by dsimp only) (by dsimp only; omega)]
      exact Finset.mem_insert_of_mem hc
    · right
      dsimp only [vMidOf]
      omega
    · intro hmem
      rcases hclass _ hmem with ⟨a, ha1, ha2, ha3⟩ | ⟨a, ha1, ha2, ha3⟩
      · exact hMid_ne_vMid a (c.1, c.2 - 1) ha3.symm
      · rw [← vMidOf_inj a (c.1, c.2 - 1) ha3.symm] at hnnot
        exact hnnot ha1
    · unfold mapAdj
      dsimp only [nodeOf, vMidOf]
      omega
    · unfold mapAdj
      dsimp only [nodeOf, vMidOf]
      omega

/-- Popping the stack preserves the invariant. -/
theorem mazeInv_pop (cw ch : ℤ) (s : MazeState) (rest : List (ℤ × ℤ))
    (hrest : ∀ x ∈ rest, x ∈ s.stack) (h : MazeInv cw ch s) :
    MazeInv cw ch { s with stack := rest } := by
  constructor
  · exact h.vis_lat
  · exact h.root_vis
  · intro x hx
    exact h.stack_vis x (hrest x hx)
  · exact h.mids
  · exact h.conn

/-- The whole carving loop preserves the invariant. -/
theorem mazeLoop_inv (cw ch : ℤ) (rng : ℕ → ℕ) :
    ∀ (fuel : ℕ) (s : MazeState), MazeInv cw ch s →
      MazeInv cw ch (mazeLoop cw ch rng fuel s) := by
  intro fuel
  induction fuel with
  | zero => intro s h; exact h
  | succ fuel ih =>
    intro s h
    obtain ⟨vis, opn, stk, k⟩ := s
    cases stk with
    | nil => exact h
    | cons c rest =>
      have hred : mazeLoop cw ch rng (fuel + 1) ⟨vis, opn, c :: rest, k⟩ =
          match cellNeighbors cw ch vis c with
          | [] => mazeLoop cw ch rng fuel ⟨vis, opn, rest, k⟩
          | m :: ms =>
            mazeLoop cw ch rng fuel
              (carveStep ⟨vis, opn, c :: rest, k⟩ c
                ((m :: ms).getD (rng k % (m :: ms).length) (0, 0))) := rfl
      rw [hred]
      cases hneigh : cellNeighbors cw ch vis c with
      | nil =>
        exact ih _ (mazeInv_pop cw ch ⟨vis, opn, c :: rest, k⟩ rest
          (fun x hx => List.mem_cons_of_mem c hx) h)
      | cons m ms =>
        have hcvis : c ∈ vis := h.stack_vis c (List.mem_cons_self c rest)
        have hmem : (m :: ms).getD (rng k % (m :: ms).length) (0, 0) ∈
            cellNeighbors cw ch vis c := by
          rw [hneigh]
          exact chosen_mem m ms (rng k)
        exact ih _ (mazeInv_carve cw ch ⟨vis, opn, c :: rest, k⟩ c _ hcvis hmem h)

/-- The invariant holds at the initial carving state. -/
theorem mazeInv_init (cw ch : ℤ) (hw : 1 ≤ cw) (hh : 1 ≤ ch) :
    MazeInv cw ch mazeInit := by
  constructor
  · intro c hcmem
    rw [show mazeInit.visited = {(0, 0)} from rfl, Finset.mem_singleton] at hcmem
    rw [hcmem]
    unfold latOK
    dsimp only
    omega
  · exact Finset.mem_singleton_self (0, 0)
  · intro c hcmem
    rw [show mazeInit.stack = [(0, 0)] from rfl, List.mem_singleton] at hcmem
    rw [hcmem]
    exact Finset.mem_singleton_self (0, 0)
  · refine ⟨∅, ?_, ?_, ?_, ?_⟩
    · rw [show mazeInit.openS = {nodeOf (0, 0)} from rfl,
        show mazeInit.visited = {(0, 0)} from rfl]
      simp
    · simp
    · intro m hm
      simp at hm
    · simp [mazeInit]
  · intro p hp
    rw [show mazeInit.openS = {nodeOf (0, 0)} from rfl,
      Finset.mem_singleton] at hp
    rw [hp]
    exact Relation.ReflTransGen.refl

/-- Row count of a materialised grid. -/
theorem gridOfOpen_length (W H : ℤ) (S : Finset (ℤ × ℤ)) :
    (gridOfOpen W H S).length = H.toNat := by
  unfold gridOfOpen
  simp

/-- Column count of a materialised grid with at least one row. -/
theorem gridOfOpen_head_length (W H : ℤ) (S : Finset (ℤ × ℤ)) (hH : 0 < H) :
    ((gridOfOpen W H S).headD []).length = W.toNat := by
  unfold gridOfOpen
  obtain ⟨k, hk⟩ : ∃ k, H.toNat = k + 1 := ⟨H.toNat - 1, by omega⟩
  rw [hk, List.range_succ_eq_map]
  simp

/-- Character of a materialised grid at an in-bounds coordinate. -/
theorem gridOfOpen_char (W H : ℤ) (S : Finset (ℤ × ℤ)) (x y : ℤ)
    (hx : 0 ≤ x) (hxW : x < W) (hy : 0 ≤ y) (hyH : y < H) :
    gridChar (gridOfOpen W H S) x y = if (x, y) ∈ S then OPEN else WALL := by
  unfold gridChar gridOfOpen
  have hyn : y.toNat < ((List.range H.toNat).map (fun y =>
      (List.range W.toNat).map fun x =>
        if (Int.ofNat x, Int.ofNat y) ∈ S then OPEN else WALL)).length := by
    rw [List.length_map, List.length_range]
    omega
  rw [List.getD_eq_getElem _ _ hyn]
  simp only [List.getElem_map, List.getElem_range]
  have hxn : x.toNat < ((List.range W.toNat).map (fun x2 =>
      if (Int.ofNat x2, Int.ofNat y.toNat) ∈ S then OPEN else WALL)).length := by
    rw [List.length_map, List.length_range]
    omega
  rw [List.getD_eq_getElem _ _ hxn]
  simp only [List.getElem_map, List.getElem_range]
  rw [show Int.ofNat x.toNat = x from by
      rw [Int.ofNat_eq_natCast]; exact Int.toNat_of_nonneg hx,
    show Int.ofNat y.toNat = y from by
      rw [Int.ofNat_eq_natCast]; exact Int.toNat_of_nonneg hy]

/-- The open-cell set of a materialised grid is the carved set, provided
the carved set lies in bounds. -/
theorem openCells_gridOfOpen (W H : ℤ) (S : Finset (ℤ × ℤ)) (hW : 0 ≤ W)
    (hH : 0 < H) (hS : ∀ p ∈ S, 0 ≤ p.1 ∧ p.1 < W ∧ 0 ≤ p.2 ∧ p.2 < H) :
    openCells (gridOfOpen W H S) = S := by
  ext p
  unfold openCells
  rw [Finset.mem_filter, Finset.mem_product, Finset.mem_Ico, Finset.mem_Ico,
    gridOfOpen_head_length W H S hH, gridOfOpen_length]
  constructor
  · rintro ⟨⟨⟨h1, h2⟩, h3, h4⟩, h5⟩
    rw [Int.toNat_of_nonneg hW] at h2
    rw [Int.toNat_of_nonneg (le_of_lt hH)] at h4
    rw [gridOfOpen_char W H S p.1 p.2 h1 h2 h3 h4] at h5
    by_cases hmem : (p.1, p.2) ∈ S
    · rw [Prod.mk.eta] at hmem
      exact hmem
    · rw [if_neg hmem] at h5
      exact absurd h5 (by decide)
  · intro hp
    obtain ⟨h1, h2, h3, h4⟩ := hS p hp
    refine ⟨⟨⟨h1, ?_⟩, h3, ?_⟩, ?_⟩
    · rw [Int.toNat_of_nonneg hW]
      exact h2
    · rw [Int.toNat_of_nonneg (le_of_lt hH)]
      exact h4
    · rw [gridOfOpen_char W H S p.1 p.2 h1 h2 h3 h4, Prod.mk.eta, if_pos hp]

/-- The horizontal un-shift is injective. -/
theorem shiftL_inj : Function.Injective (fun m : ℤ × ℤ => (m.1 - 1, m.2)) := by
  intro a b h
  rw [Prod.mk.injEq] at h
  exact Prod.ext (by omega) (by omega)

/-- The vertical un-shift is injective. -/
theorem shiftU_inj : Function.Injective (fun m : ℤ × ℤ => (m.1, m.2 - 1)) := by
  intro a b h
  rw [Prod.mk.injEq] at h
  exact Prod.ext (by omega) (by omega)

/-- Counting the adjacent open pairs of the carved set: every horizontal
pair consists of a horizontal midpoint and one of its two end nodes, and
likewise vertically, so the open subgraph has exactly one edge per
midpoint endpoint — one less than it has cells. -/
theorem maze_tree_count (visited M : Finset (ℤ × ℤ))
    (hclass : ∀ m ∈ M,
      (∃ a, a ∈ visited ∧ (a.1 + 1, a.2) ∈ visited ∧ m = hMidOf a) ∨
      (∃ a, a ∈ visited ∧ (a.1, a.2 + 1) ∈ visited ∧ m = vMidOf a))
    (hcard : M.card + 1 = visited.card) :
    ((visited.image nodeOf ∪ M).filter
        (fun p => (p.1 + 1, p.2) ∈ visited.image nodeOf ∪ M)).card +
      ((visited.image nodeOf ∪ M).filter
        (fun p => (p.1, p.2 + 1) ∈ visited.image nodeOf ∪ M)).card + 1 =
      (visited.image nodeOf ∪ M).card := by
  classical
  have hparV : ∀ v ∈ visited.image nodeOf, v.1 % 2 = 1 ∧ v.2 % 2 = 1 := by
    intro v hv
    obtain ⟨b, _, hb⟩ := Finset.mem_image.mp hv
    rw [← hb]
    exact nodeOf_parity b
  have hparM : ∀ m ∈ M, (m.1 % 2 = 0 ∧ m.2 % 2 = 1) ∨
      (m.1 % 2 = 1 ∧ m.2 % 2 = 0) :=
    fun m hm => mid_parity_of_class visited m (hclass m hm)
  have hdisj : Disjoint (visited.image nodeOf) M := by
    rw [Finset.disjoint_left]
    intro a haV haM
    have h1 := hparV a haV
    have h2 := hparM a haM
    omega
  have hMh_shape : ∀ m ∈ M.filter (fun m => m.1 % 2 = 0),
      ∃ a, a ∈ visited ∧ (a.1 + 1, a.2) ∈ visited ∧ m = hMidOf a := by
    intro m hm
    rw [Finset.mem_filter] at hm
    rcases hclass m hm.1 with h | h
    · exact h
    · obtain ⟨a, _, _, ha⟩ := h
      exfalso
      have := hm.2
      rw [ha] at this
      dsimp only [vMidOf] at this
      omega
  have hMv_shape : ∀ m ∈ M.filter (fun m => m.2 % 2 = 0),
      ∃ a, a ∈ visited ∧ (a.1, a.2 + 1) ∈ visited ∧ m = vMidOf a := by
    intro m hm
    rw [Finset.mem_filter] at hm
    rcases hclass m hm.1 with h | h
    · obtain ⟨a, _, _, ha⟩ := h
      exfalso
      have := hm.2
      rw [ha] at this
      dsimp only [hMidOf] at this
      omega
    · exact h
  have hMsplit : M = M.filter (fun m => m.1 % 2 = 0) ∪
      M.filter (fun m => m.2 % 2 = 0) := by
    ext m
    simp only [Finset.mem_union, Finset.mem_filter]
    constructor
    · intro hm
      rcases hparM m hm with ⟨h1, _⟩ | ⟨_, h2⟩
      · exact Or.inl ⟨hm, h1⟩
      · exact Or.inr ⟨hm, h2⟩
    · rintro (⟨hm, _⟩ | ⟨hm, _⟩) <;> exact hm
  have hMhv_disj : Disjoint (M.filter (fun m => m.1 % 2 = 0))
      (M.filter (fun m => m.2 % 2 = 0)) := by
    rw [Finset.disjoint_left]
    intro a h1 h2
    rw [Finset.mem_filter] at h1 h2
    rcases hparM a h1.1 with h | h <;> omega
  have hA : (visited.image nodeOf ∪ M).filter
      (fun p => (p.1 + 1, p.2) ∈ visited.image nodeOf ∪ M) =
      (M.filter (fun m => m.1 % 2 = 0)).image (fun m => (m.1 - 1, m.2)) ∪
        M.filter (fun m => m.1 % 2 = 0) := by
    ext p
    constructor
    · intro hmem
      obtain ⟨hpS, hqS⟩ := Finset.mem_filter.mp hmem
      rcases Finset.mem_union.mp hpS with hpV | hpM
      · have hq : (p.1 + 1, p.2) ∈ M := by
          rcases Finset.mem_union.mp hqS with h1 | h1
          · exfalso
            have h2 := hparV _ h1
            have h3 := hparV p hpV
            dsimp only at h2
            omega
          · exact h1
        apply Finset.mem_union_left
        apply Finset.mem_image.mpr
        refine ⟨(p.1 + 1, p.2), ?_, ?_⟩
        · apply Finset.mem_filter.mpr
          refine ⟨hq, ?_⟩
          have h3 := hparV p hpV
          dsimp only
          omega
        · dsimp only
          rw [Prod.mk.injEq]
          exact ⟨by omega, rfl⟩
      · rcases hparM p hpM with ⟨he1, _⟩ | ⟨_, he2⟩
        · apply Finset.mem_union_right
          exact Finset.mem_filter.mpr ⟨hpM, he1⟩
        · exfalso
          rcases Finset.mem_union.mp hqS with h1 | h1
          · have h2 := hparV _ h1
            dsimp only at h2
            omega
          · have h2 := hparM _ h1
            dsimp only at h2
            omega
    · intro hmem
      apply Finset.mem_filter.mpr
      rcases Finset.mem_union.mp hmem with hpI | hpMh
      · obtain ⟨m, hmMh, hmp⟩ := Finset.mem_image.mp hpI
        obtain ⟨a, ha1, ha2, hma⟩ := hMh_shape m hmMh
        have hmM : m ∈ M := (Finset.mem_filter.mp hmMh).1
        have hpnode : p = nodeOf a := by
          rw [← hmp, hma]
          dsimp only [hMidOf, nodeOf]
          rw [Prod.mk.injEq]
          exact ⟨by omega, rfl⟩
        have hqm : (p.1 + 1, p.2) = m := by
          rw [← hmp]
          dsimp only
          rw [Prod.mk.injEq]
          exact ⟨by omega, rfl⟩
        constructor
        · have hpV : p ∈ visited.image nodeOf := by
            rw [hpnode]
            exact Finset.mem_image_of_mem nodeOf ha1
          exact Finset.mem_union_left M hpV
        · rw [hqm]
          exact Finset.mem_union_right _ hmM
      · obtain ⟨a, ha1, ha2, hpa⟩ := hMh_shape p hpMh
        have hpM : p ∈ M := (Finset.mem_filter.mp hpMh).1
        constructor
        · exact Finset.mem_union_right _ hpM
        · have hqnode : (p.1 + 1, p.2) = nodeOf (a.1 + 1, a.2) := by
            rw [hpa]
            dsimp only [hMidOf, nodeOf]
            rw [Prod.mk.injEq]
            exact ⟨by omega, by omega⟩
          rw [hqnode]
          exact Finset.mem_union_left M (Finset.mem_image_of_mem nodeOf ha2)
  have hB : (visited.image nodeOf ∪ M).filter
      (fun p => (p.1, p.2 + 1) ∈ visited.image nodeOf ∪ M) =
      (M.filter (fun m => m.2 % 2 = 0)).image (fun m => (m.1, m.2 - 1)) ∪
        M.filter (fun m => m.2 % 2 = 0) := by
    ext p
    constructor
    · intro hmem
      obtain ⟨hpS, hqS⟩ := Finset.mem_filter.mp hmem
      rcases Finset.mem_union.mp hpS with hpV | hpM
      · have hq : (p.1, p.2 + 1) ∈ M := by
          rcases Finset.mem_union.mp hqS with h1 | h1
          · exfalso
            have h2 := hparV _ h1
            have h3 := hparV p hpV
            dsimp only at h2
            omega
          · exact h1
        apply Finset.mem_union_left
        apply Finset.mem_image.mpr
        refine ⟨(p.1, p.2 + 1), ?_, ?_⟩
        · apply Finset.mem_filter.mpr
          refine ⟨hq, ?_⟩
          have h3 := hparV p hpV
          dsimp only
          omega
        · dsimp only
          rw [Prod.mk.injEq]
          exact ⟨rfl, by omega⟩
      · rcases hparM p hpM with ⟨he1, _⟩ | ⟨_, he2⟩
        · exfalso
          rcases Finset.mem_union.mp hqS with h1 | h1
          · have h2 := hparV _ h1
            dsimp only at h2
            omega
          · have h2 := hparM _ h1
            dsimp only at h2
            omega
        · apply Finset.mem_union_right
          exact Finset.mem_filter.mpr ⟨hpM, he2⟩
    · intro hmem
      apply Finset.mem_filter.mpr
      rcases Finset.mem_union.mp hmem with hpI | hpMv
      · obtain ⟨m, hmMv, hmp⟩ := Finset.mem_image.mp hpI
        obtain ⟨a, ha1, ha2, hma⟩ := hMv_shape m hmMv
        have hmM : m ∈ M := (Finset.mem_filter.mp hmMv).1
        have hpnode : p = nodeOf a := by
          rw [← hmp, hma]
          dsimp only [vMidOf, nodeOf]
          rw [Prod.mk.injEq]
          exact ⟨rfl, by omega⟩
        have hqm : (p.1, p.2 + 1) = m := by
          rw [← hmp]
          dsimp only
          rw [Prod.mk.injEq]
          exact ⟨rfl, by omega⟩
        constructor
        · have hpV : p ∈ visited.image nodeOf := by
            rw [hpnode]
            exact Finset.mem_image_of_mem nodeOf ha1
          exact Finset.mem_union_left M hpV
        · rw [hqm]
          exact Finset.mem_union_right _ hmM
      · obtain ⟨a, ha1, ha2, hpa⟩ := hMv_shape p hpMv
        have hpM : p ∈ M := (Finset.mem_filter.mp hpMv).1
        constructor
        · exact Finset.mem_union_right _ hpM
        · have hqnode : (p.1, p.2 + 1) = nodeOf (a.1, a.2 + 1) := by
            rw [hpa]
            dsimp only [vMidOf, nodeOf]
            rw [Prod.mk.injEq]
            exact ⟨by omega, by omega⟩
          rw [hqnode]
          exact Finset.mem_union_left M (Finset.mem_image_of_mem nodeOf ha2)
  have hAdisj : Disjoint
      ((M.filter (fun m => m.1 % 2 = 0)).image (fun m => (m.1 - 1, m.2)))
      (M.filter (fun m => m.1 % 2 = 0)) := by
    rw [Finset.disjoint_left]
    intro a ha1 ha2
    obtain ⟨m, hm, hma⟩ := Finset.mem_image.mp ha1
    have h1 := (Finset.mem_filter.mp hm).2
    have h2 := (Finset.mem_filter.mp ha2).2
    rw [← hma] at h2
    dsimp only at h1 h2
    omega
  have hBdisj : Disjoint
      ((M.filter (fun m => m.2 % 2 = 0)).image (fun m => (m.1, m.2 - 1)))
      (M.filter (fun m => m.2 % 2 = 0)) := by
    rw [Finset.disjoint_left]
    intro a ha1 ha2
    obtain ⟨m, hm, hma⟩ := Finset.mem_image.mp ha1
    have h1 := (Finset.mem_filter.mp hm).2
    have h2 := (Finset.mem_filter.mp ha2).2
    rw [← hma] at h2
    dsimp only at h1 h2
    omega
  have hAcard : ((visited.image nodeOf ∪ M).filter
      (fun p => (p.1 + 1, p.2) ∈ visited.image nodeOf ∪ M)).card =
      2 * (M.filter (fun m => m.1 % 2 = 0)).card := by
    rw [hA, Finset.card_union_of_disjoint hAdisj,
      Finset.card_image_of_injective _ shiftL_inj]
    omega
  have hBcard : ((visited.image nodeOf ∪ M).filter
      (fun p => (p.1, p.2 + 1) ∈ visited.image nodeOf ∪ M)).card =
      2 * (M.filter (fun m => m.2 % 2 = 0)).card := by
    rw [hB, Finset.card_union_of_disjoint hBdisj,
      Finset.card_image_of_injective _ shiftU_inj]
    omega
  have hScard : (visited.image nodeOf ∪ M).card = visited.card + M.card := by
    rw [Finset.card_union_of_disjoint hdisj,
      Finset.card_image_of_injective _ nodeOf_inj]
  have hMcard : (M.filter (fun m => m.1 % 2 = 0)).card +
      (M.filter (fun m => m.2 % 2 = 0)).card = M.card := by
    rw [← Finset.card_union_of_disjoint hMhv_disj, ← hMsplit]
  rw [hAcard, hBcard, hScard]
  omega

/-- Reachability inside a set is symmetric. -/
theorem ReachIn_symm (S : Finset (ℤ × ℤ)) (p q : ℤ × ℤ)
    (h : ReachIn S p q) : ReachIn S q p := by
  have hsym : Symmetric (fun u v : ℤ × ℤ => u ∈ S ∧ v ∈ S ∧ mapAdj u v) :=
    fun u v hr => ⟨hr.2.1, hr.1, mapAdj_symm u v hr.2.2⟩
  exact Relation.ReflTransGen.symmetric hsym h

/-- Core properties of `generate_maze`, for arbitrary size inputs (the
source clamps them up to 2): the open set sits strictly inside the
border, any two open cells are connected inside the open set, and the
number of adjacent open pairs is one less than the number of open
cells. -/
theorem generate_maze_core (cell_w cell_h : ℤ) (rng : ℕ → ℕ) :
    (∀ x y : ℤ, 0 ≤ x → x ≤ (max 2 cell_w) * 2 → 0 ≤ y →
      y ≤ (max 2 cell_h) * 2 →
      (x = 0 ∨ x = (max 2 cell_w) * 2 ∨ y = 0 ∨ y = (max 2 cell_h) * 2) →
      gridChar (generate_maze cell_w cell_h rng) x y = WALL)
    ∧ (∀ p q, p ∈ openCells (generate_maze cell_w cell_h rng) →
        q ∈ openCells (generate_maze cell_w cell_h rng) →
        ReachIn (openCells (generate_maze cell_w cell_h rng)) p q)
    ∧ hEdgeCount (generate_maze cell_w cell_h rng) +
        vEdgeCount (generate_maze cell_w cell_h rng) + 1 =
        (openCells (generate_maze cell_w cell_h rng)).card := by
  have hcw : 2 ≤ max 2 cell_w := le_max_left 2 cell_w
  have hch : 2 ≤ max 2 cell_h := le_max_left 2 cell_h
  have hinv : MazeInv (max 2 cell_w) (max 2 cell_h)
      (mazeFinal cell_w cell_h rng) :=
    mazeLoop_inv (max 2 cell_w) (max 2 cell_h) rng _ mazeInit
      (mazeInv_init _ _ (by omega) (by omega))
  obtain ⟨M, hSeq, hdisj, hclass, hcard⟩ := hinv.mids
  have hbound : ∀ p ∈ (mazeFinal cell_w cell_h rng).openS,
      1 ≤ p.1 ∧ p.1 ≤ (max 2 cell_w) * 2 - 1 ∧
      1 ≤ p.2 ∧ p.2 ≤ (max 2 cell_h) * 2 - 1 := by
    intro p hp
    rw [hSeq] at hp
    rcases Finset.mem_union.mp hp with h1 | h1
    · obtain ⟨a, ha, hpa⟩ := Finset.mem_image.mp h1
      have hl := hinv.vis_lat a ha
      unfold latOK at hl
      rw [← hpa]
      dsimp only [nodeOf]
      omega
    · rcases hclass p h1 with ⟨a, ha1, ha2, hpa⟩ | ⟨a, ha1, ha2, hpa⟩
      · have hl1 := hinv.vis_lat a ha1
        have hl2 := hinv.vis_lat _ ha2
        unfold latOK at hl1 hl2
        dsimp only at hl2
        rw [hpa]
        dsimp only [hMidOf]
        omega
      · have hl1 := hinv.vis_lat a ha1
        have hl2 := hinv.vis_lat _ ha2
        unfold latOK at hl1 hl2
        dsimp only at hl2
        rw [hpa]
        dsimp only [vMidOf]
        omega
  have hboundRect : ∀ p ∈ (mazeFinal cell_w cell_h rng).openS,
      0 ≤ p.1 ∧ p.1 < (max 2 cell_w) * 2 + 1 ∧
      0 ≤ p.2 ∧ p.2 < (max 2 cell_h) * 2 + 1 := by
    intro p hp
    have := hbound p hp
    omega
  have hgrid : generate_maze cell_w cell_h rng =
      gridOfOpen ((max 2 cell_w) * 2 + 1) ((max 2 cell_h) * 2 + 1)
        (mazeFinal cell_w cell_h rng).openS := rfl
  have hopen : openCells (generate_maze cell_w cell_h rng) =
      (mazeFinal cell_w cell_h rng).openS := by
    rw [hgrid]
    exact openCells_gridOfOpen _ _ _ (by omega) (by omega) hboundRect
  refine ⟨?_, ?_, ?_⟩
  · intro x y hx0 hxW hy0 hyH hborder
    rw [hgrid, gridOfOpen_char _ _ _ x y hx0 (by omega) hy0 (by omega)]
    rw [if_neg ?_]
    intro hmem
    have := hbound (x, y) hmem
    dsimp only at this
    omega
  · intro p q hp hq
    rw [hopen] at hp hq ⊢
    have h1 := hinv.conn p hp
    have h2 := hinv.conn q hq
    exact Relation.ReflTransGen.trans (ReachIn_symm _ _ _ h1) h2
  · unfold hEdgeCount vEdgeCount
    rw [hopen, hSeq]
    exact maze_tree_count _ M hclass hcard

/-- C1: for sizes at least 2 and every random stream, the grid returned
by `generate_maze` has an all-wall border, and its open-cell subgraph
under 4-connectivity is connected with exactly one adjacency less than
it has open cells (a perfect-maze tree count). -/
theorem generate_maze_perfect (cell_w cell_h : ℤ) (rng : ℕ → ℕ)
    (hw : 2 ≤ cell_w) (hh : 2 ≤ cell_h) :
    (∀ x y : ℤ, 0 ≤ x → x ≤ cell_w * 2 → 0 ≤ y → y ≤ cell_h * 2 →
      (x = 0 ∨ x = cell_w * 2 ∨ y = 0 ∨ y = cell_h * 2) →
      gridChar (generate_maze cell_w cell_h rng) x y = WALL)
    ∧ (∀ p q, p ∈ openCells (generate_maze cell_w cell_h rng) →
        q ∈ openCells (generate_maze cell_w cell_h rng) →
        ReachIn (openCells (generate_maze cell_w cell_h rng)) p q)
    ∧ hEdgeCount (generate_maze cell_w cell_h rng) +
        vEdgeCount (generate_maze cell_w cell_h rng) + 1 =
        (openCells (generate_maze cell_w cell_h rng)).card := by
  have hmax_w : max 2 cell_w = cell_w := max_eq_right hw
  have hmax_h : max 2 cell_h = cell_h := max_eq_right hh
  have hcore := generate_maze_core cell_w cell_h rng
  rw [hmax_w, hmax_h] at hcore
  exact hcore

/-- Witness for C1 at size 2×2 with the constant-zero random stream. -/
theorem generate_maze_perfect_witness :
    (∀ x y : ℤ, 0 ≤ x → x ≤ 2 * 2 → 0 ≤ y → y ≤ 2 * 2 →
      (x = 0 ∨ x = 2 * 2 ∨ y = 0 ∨ y = 2 * 2) →
      gridChar (generate_maze 2 2 (fun _ => 0)) x y = WALL)
    ∧ (∀ p q, p ∈ openCells (generate_maze 2 2 (fun _ => 0)) →
        q ∈ openCells (generate_maze 2 2 (fun _ => 0)) →
        ReachIn (openCells (generate_maze 2 2 (fun _ => 0))) p q)
    ∧ hEdgeCount (generate_maze 2 2 (fun _ => 0)) +
        vEdgeCount (generate_maze 2 2 (fun _ => 0)) + 1 =
        (openCells (generate_maze 2 2 (fun _ => 0))).card :=
  generate_maze_perfect 2 2 (fun _ => 0) (by decide) (by decide)

end Maze3d
